import Mathlib

/-!
Verification development for the redis-backed filesystem emulation layer
(`internal/fs`).  The path resolver, metadata codec, key-addressed store and
the engine operations are embedded as executable Lean definitions; the
engine's Redis backend is modelled as four path-indexed partial maps (one per
key class: metadata hash, content string, directory membership set, xattr
record), and each engine operation is modelled as the sequence of atomic
commits (MULTI/EXEC transactions or single commands) it issues, so that the
externally observable intermediate states are explicit.
-/

/-! ## Path resolver (path.go) -/

/-- Split a character list at slash separators: an element is a maximal run
between slashes, and a leading, trailing or doubled slash yields an empty
element.  This is the element decomposition that Go `path.Clean` scans. -/
def splitSlash : List Char → List (List Char)
  | [] => [[]]
  | c :: rest =>
    if c = '/' then [] :: splitSlash rest
    else
      match splitSlash rest with
      | [] => [[c]]
      | h :: t => (c :: h) :: t

/-- Join elements back with slash separators. -/
def joinSlash : List (List Char) → List Char
  | [] => []
  | [c] => c
  | c :: rest => c ++ '/' :: joinSlash rest

/-- One step of the element stack underlying Go `path.Clean`: empty and `.`
elements are skipped; `..` pops the last element (for a rooted path it is
dropped at the root, for an unrooted path it accumulates when nothing can be
popped); any other element is pushed. -/
def cleanStep (rooted : Bool) (stack : List (List Char)) (c : List Char) : List (List Char) :=
  if c = [] ∨ c = ['.'] then stack
  else if c = ['.', '.'] then
    if rooted then stack.tail
    else
      match stack with
      | [] => [['.', '.']]
      | top :: rest => if top = ['.', '.'] then ['.', '.'] :: top :: rest else rest
  else c :: stack

/-- Process all elements of a path through the `path.Clean` stack. -/
def cleanStack (rooted : Bool) (cs : List (List Char)) : List (List Char) :=
  (cs.foldl (cleanStep rooted) []).reverse

/-- Embedding of Go `path.Clean` on character lists: resolves `.`, `..` and
repeated slashes; an empty result is rendered as `.`. -/
def cleanL (p : List Char) : List Char :=
  if p = [] then ['.']
  else if p.head? = some '/' then '/' :: joinSlash (cleanStack true (splitSlash p))
  else if cleanStack false (splitSlash p) = [] then ['.']
  else joinSlash (cleanStack false (splitSlash p))

/-- Embedding of `NormalizePath`: empty input gives the root, the path is
cleaned, and a leading slash is forced onto the result. -/
def NormalizePath (p : String) : String :=
  if p = "" then "/"
  else if cleanL p.data = ['.'] then "/"
  else if (cleanL p.data).head? = some '/' then String.mk (cleanL p.data)
  else String.mk ('/' :: cleanL p.data)

/-- Embedding of Go `path.Dir`: everything up to and including the final
slash, cleaned; input without a slash yields `.`. -/
def dirL (p : List Char) : List Char :=
  cleanL ((p.reverse.dropWhile (fun c => c ≠ '/')).reverse)

/-- Embedding of `ParentPath`: normalize, root is its own parent, otherwise
`path.Dir` (with `.` mapped back to the root). -/
def ParentPath (p : String) : String :=
  let q := NormalizePath p
  if q = "/" then "/"
  else
    let parent := dirL q.data
    if parent = ['.'] then "/" else String.mk parent

/-- Embedding of Go `path.Base`: strip trailing slashes and keep the part
after the final slash; an all-slash input gives `/`, an empty input `.`. -/
def baseL (p : List Char) : List Char :=
  if p = [] then ['.']
  else
    let stripped := (p.reverse.dropWhile (fun c => c = '/')).reverse
    let last := stripped.reverse.takeWhile (fun c => c ≠ '/')
    if last = [] then ['/'] else last.reverse

/-- Embedding of `BaseName`: normalize, the root's basename is `/`,
otherwise `path.Base`. -/
def BaseName (p : String) : String :=
  let q := NormalizePath p
  if q = "/" then "/" else String.mk (baseL q.data)

/-- Embedding of `SplitPath`: parent and basename. -/
def SplitPath (p : String) : String × String := (ParentPath p, BaseName p)

/-- Embedding of `JoinPath` at the two-argument call sites used by the
engine: `strings.Join([a, b], "/")`, normalized. -/
def JoinPath (a b : String) : String := NormalizePath (a ++ "/" ++ b)

example : NormalizePath "" = "/" := by decide
example : NormalizePath "/a//b/./c/../d/" = "/a/b/d" := by decide
example : NormalizePath "x/y" = "/x/y" := by decide
example : NormalizePath ".." = "/.." := by decide
example : NormalizePath "/.." = "/" := by decide
example : ParentPath "/a/b" = "/a" := by decide
example : ParentPath "/a" = "/" := by decide
example : ParentPath "/" = "/" := by decide
example : BaseName "/a/b" = "b" := by decide
example : BaseName "/" = "/" := by decide
example : JoinPath "/a" "b" = "/a/b" := by decide

/-! ### Structural lemmas about the path cleaner -/

/-- Elements that render and re-split safely: nonempty and slash-free. -/
def GoodElem (c : List Char) : Prop := c ≠ [] ∧ '/' ∉ c

/-- Elements that survive a second cleaning pass unchanged: nonempty,
slash-free, and neither `.` nor `..`. -/
def NormalElem (c : List Char) : Prop :=
  c ≠ [] ∧ c ≠ ['.'] ∧ c ≠ ['.', '.'] ∧ '/' ∉ c

theorem NormalElem.good {c : List Char} (h : NormalElem c) : GoodElem c :=
  ⟨h.1, h.2.2.2⟩

theorem splitSlash_no_slash : ∀ p : List Char, ∀ c ∈ splitSlash p, '/' ∉ c := by
  intro p
  induction p with
  | nil =>
    intro c hc
    simp only [splitSlash, List.mem_singleton] at hc
    subst hc; simp
  | cons x rest ih =>
    intro c hc
    by_cases hx : x = '/'
    · subst hx
      rw [splitSlash, if_pos rfl] at hc
      rcases List.mem_cons.mp hc with h | h
      · subst h; simp
      · exact ih c h
    · rw [splitSlash, if_neg hx] at hc
      rcases hsp : splitSlash rest with _ | ⟨h0, t0⟩
      · rw [hsp] at hc
        simp only [List.mem_singleton] at hc
        subst hc
        intro hm
        simp only [List.mem_singleton] at hm
        exact hx hm.symm
      · rw [hsp] at hc
        rcases List.mem_cons.mp hc with h | h
        · subst h
          intro hmem
          rcases List.mem_cons.mp hmem with hh | hh
          · exact hx hh.symm
          · exact ih h0 (by rw [hsp]; exact List.mem_cons_self _ _) hh
        · exact ih c (by rw [hsp]; exact List.mem_cons_of_mem _ h)

theorem splitSlash_ne_nil (p : List Char) : splitSlash p ≠ [] := by
  cases p with
  | nil => simp [splitSlash]
  | cons x rest =>
    by_cases hx : x = '/'
    · simp [splitSlash, hx]
    · rw [splitSlash, if_neg hx]
      rcases splitSlash rest with _ | ⟨h0, t0⟩ <;> simp

theorem cleanStep_good {r : Bool} {stack : List (List Char)} {e : List Char}
    (hs : ∀ c ∈ stack, GoodElem c) (he : '/' ∉ e) :
    ∀ c ∈ cleanStep r stack e, GoodElem c := by
  intro c hc
  by_cases h1 : e = [] ∨ e = ['.']
  · rw [cleanStep.eq_def, if_pos h1] at hc; exact hs c hc
  · by_cases h2 : e = ['.', '.']
    · rw [cleanStep.eq_def, if_neg h1, if_pos h2] at hc
      cases r with
      | true =>
        rw [if_pos rfl] at hc
        exact hs c (List.mem_of_mem_tail hc)
      | false =>
        simp only [Bool.false_eq_true, if_false] at hc
        rcases stack with _ | ⟨top, rest⟩
        · simp only [List.mem_singleton] at hc
          subst hc; exact ⟨by simp, by simp⟩
        · dsimp only at hc
          by_cases h3 : top = ['.', '.']
          · rw [if_pos h3] at hc
            rcases List.mem_cons.mp hc with h | h
            · subst h; exact ⟨by simp, by simp⟩
            · exact hs c h
          · rw [if_neg h3] at hc
            exact hs c (List.mem_cons_of_mem _ hc)
    · rw [cleanStep.eq_def, if_neg h1, if_neg h2] at hc
      rcases List.mem_cons.mp hc with h | h
      · subst h; exact ⟨fun hnil => h1 (Or.inl hnil), he⟩
      · exact hs c h

theorem cleanStep_normal {stack : List (List Char)} {e : List Char}
    (hs : ∀ c ∈ stack, NormalElem c) (he : '/' ∉ e) :
    ∀ c ∈ cleanStep true stack e, NormalElem c := by
  intro c hc
  by_cases h1 : e = [] ∨ e = ['.']
  · rw [cleanStep.eq_def, if_pos h1] at hc; exact hs c hc
  · by_cases h2 : e = ['.', '.']
    · rw [cleanStep.eq_def, if_neg h1, if_pos h2, if_pos rfl] at hc
      exact hs c (List.mem_of_mem_tail hc)
    · rw [cleanStep.eq_def, if_neg h1, if_neg h2] at hc
      rcases List.mem_cons.mp hc with h | h
      · subst h
        exact ⟨fun hnil => h1 (Or.inl hnil), fun hdot => h1 (Or.inr hdot), h2, he⟩
      · exact hs c h

theorem foldl_cleanStep_good {r : Bool} (cs : List (List Char)) :
    ∀ acc : List (List Char), (∀ c ∈ acc, GoodElem c) →
    (∀ c ∈ cs, '/' ∉ c) →
    ∀ c ∈ cs.foldl (cleanStep r) acc, GoodElem c := by
  induction cs with
  | nil => intro acc hacc _ c hc; exact hacc c hc
  | cons e rest ih =>
    intro acc hacc hcs c hc
    simp only [List.foldl_cons] at hc
    exact ih (cleanStep r acc e)
      (cleanStep_good hacc (hcs e (List.mem_cons_self _ _)))
      (fun d hd => hcs d (List.mem_cons_of_mem _ hd)) c hc

theorem foldl_cleanStep_normal (cs : List (List Char)) :
    ∀ acc : List (List Char), (∀ c ∈ acc, NormalElem c) →
    (∀ c ∈ cs, '/' ∉ c) →
    ∀ c ∈ cs.foldl (cleanStep true) acc, NormalElem c := by
  induction cs with
  | nil => intro acc hacc _ c hc; exact hacc c hc
  | cons e rest ih =>
    intro acc hacc hcs c hc
    simp only [List.foldl_cons] at hc
    exact ih (cleanStep true acc e)
      (cleanStep_normal hacc (hcs e (List.mem_cons_self _ _)))
      (fun d hd => hcs d (List.mem_cons_of_mem _ hd)) c hc

theorem cleanStack_good {r : Bool} (p : List Char) :
    ∀ c ∈ cleanStack r (splitSlash p), GoodElem c := by
  intro c hc
  unfold cleanStack at hc
  rw [List.mem_reverse] at hc
  exact foldl_cleanStep_good (splitSlash p) [] (by simp) (splitSlash_no_slash p) c hc

theorem cleanStack_normal (p : List Char) :
    ∀ c ∈ cleanStack true (splitSlash p), NormalElem c := by
  intro c hc
  unfold cleanStack at hc
  rw [List.mem_reverse] at hc
  exact foldl_cleanStep_normal (splitSlash p) [] (by simp) (splitSlash_no_slash p) c hc

theorem splitSlash_no_slash_id {c : List Char} (h : '/' ∉ c) : splitSlash c = [c] := by
  induction c with
  | nil => rfl
  | cons x xs ih =>
    have hx : x ≠ '/' := fun hh => h (hh ▸ List.mem_cons_self _ _)
    have hxs : '/' ∉ xs := fun hm => h (List.mem_cons_of_mem _ hm)
    rw [splitSlash, if_neg hx, ih hxs]

theorem splitSlash_append_slash {c : List Char} (h : '/' ∉ c) (t : List Char) :
    splitSlash (c ++ '/' :: t) = c :: splitSlash t := by
  induction c with
  | nil => rw [List.nil_append, splitSlash, if_pos rfl]
  | cons x xs ih =>
    have hx : x ≠ '/' := fun hh => h (hh ▸ List.mem_cons_self _ _)
    have hxs : '/' ∉ xs := fun hm => h (List.mem_cons_of_mem _ hm)
    rw [List.cons_append, splitSlash, if_neg hx, ih hxs]


theorem joinSlash_cons_cons (c d : List Char) (r : List (List Char)) :
    joinSlash (c :: d :: r) = c ++ '/' :: joinSlash (d :: r) := rfl

theorem splitSlash_joinSlash : ∀ l : List (List Char), l ≠ [] →
    (∀ c ∈ l, '/' ∉ c) → splitSlash (joinSlash l) = l := by
  intro l
  induction l with
  | nil => intro h; exact absurd rfl h
  | cons c rest ih =>
    intro _ hl
    cases rest with
    | nil => exact splitSlash_no_slash_id (hl c (List.mem_cons_self _ _))
    | cons d rest' =>
      rw [joinSlash_cons_cons, splitSlash_append_slash (hl c (List.mem_cons_self _ _))]
      rw [ih (by simp) (fun e he => hl e (List.mem_cons_of_mem _ he))]

theorem foldl_cleanStep_pushes : ∀ comps : List (List Char),
    (∀ c ∈ comps, NormalElem c) → ∀ acc : List (List Char),
    comps.foldl (cleanStep true) acc = comps.reverse ++ acc := by
  intro comps
  induction comps with
  | nil => intro _ acc; simp
  | cons c rest ih =>
    intro hn acc
    have hc : NormalElem c := hn c (List.mem_cons_self _ _)
    have hstep : cleanStep true acc c = c :: acc := by
      rw [cleanStep.eq_def, if_neg (fun hor => hor.elim hc.1 hc.2.1), if_neg hc.2.2.1]
    rw [List.foldl_cons, hstep, ih (fun e he => hn e (List.mem_cons_of_mem _ he))]
    simp

theorem getLast?_append_cons : ∀ (c : List Char) (x : Char) (t : List Char),
    (c ++ x :: t).getLast? = (x :: t).getLast? := by
  intro c
  induction c with
  | nil => intro x t; rfl
  | cons y c ih =>
    intro x t
    cases c with
    | nil => rw [List.singleton_append, List.getLast?_cons_cons]
    | cons z c' =>
      simp only [List.cons_append, List.getLast?_cons_cons]
      simpa using ih x t

theorem no_slash_getLast? : ∀ c : List Char, '/' ∉ c → c.getLast? ≠ some '/' := by
  intro c
  induction c with
  | nil => intro _ h; exact Option.noConfusion h
  | cons x xs ih =>
    intro h
    cases xs with
    | nil =>
      intro hl
      have : x = '/' := by simpa using hl
      exact h (this ▸ List.mem_cons_self _ _)
    | cons y ys =>
      rw [List.getLast?_cons_cons]
      exact ih (fun hm => h (List.mem_cons_of_mem _ hm))

theorem joinSlash_getLast? : ∀ l : List (List Char), l ≠ [] →
    (∀ c ∈ l, GoodElem c) → joinSlash l ≠ [] ∧ (joinSlash l).getLast? ≠ some '/' := by
  intro l
  induction l with
  | nil => intro h; exact absurd rfl h
  | cons c rest ih =>
    intro _ hl
    cases rest with
    | nil =>
      have hg := hl c (List.mem_cons_self _ _)
      exact ⟨hg.1, no_slash_getLast? c hg.2⟩
    | cons d rest' =>
      have hrest := ih (by simp) (fun e he => hl e (List.mem_cons_of_mem _ he))
      constructor
      · rw [joinSlash_cons_cons]
        rcases hl c (List.mem_cons_self _ _) with ⟨hc, _⟩
        cases c with
        | nil => exact absurd rfl hc
        | cons a as => simp
      · rw [joinSlash_cons_cons, getLast?_append_cons]
        rcases hj : joinSlash (d :: rest') with _ | ⟨w, ws⟩
        · exact absurd hj hrest.1
        · rw [List.getLast?_cons_cons, ← hj]
          exact hrest.2

theorem NormalizePath_rooted (p : String) (h : p.data.head? = some '/') :
    NormalizePath p = String.mk ('/' :: joinSlash (cleanStack true (splitSlash p.data))) := by
  have hne : p ≠ "" := by
    intro hp
    rw [hp] at h
    exact Option.noConfusion h
  have hclean : cleanL p.data = '/' :: joinSlash (cleanStack true (splitSlash p.data)) := by
    rw [cleanL, if_neg, if_pos h]
    intro hnil
    rw [hnil] at h
    exact Option.noConfusion h
  rw [NormalizePath, if_neg hne, hclean]
  rw [if_neg (by intro hdot; simp at hdot)]
  rw [if_pos (show ('/' :: joinSlash (cleanStack true (splitSlash p.data))).head? = some '/' from rfl)]

theorem NormalizePath_head (p : String) : (NormalizePath p).data.head? = some '/' := by
  by_cases h0 : p = ""
  · subst h0; rfl
  · rw [NormalizePath, if_neg h0]
    by_cases h1 : cleanL p.data = ['.']
    · rw [if_pos h1]; rfl
    · rw [if_neg h1]
      by_cases h2 : (cleanL p.data).head? = some '/'
      · rw [if_pos h2]; exact h2
      · rw [if_neg h2]; rfl

theorem NormalizePath_idem_rooted (p : String) (h : p.data.head? = some '/') :
    NormalizePath (NormalizePath p) = NormalizePath p := by
  rw [NormalizePath_rooted p h]
  have hnorm : ∀ c ∈ cleanStack true (splitSlash p.data), NormalElem c := cleanStack_normal p.data
  rcases hc : cleanStack true (splitSlash p.data) with _ | ⟨c0, cs⟩
  · decide
  · rw [hc] at hnorm
    have hq : (String.mk ('/' :: joinSlash (c0 :: cs))).data = '/' :: joinSlash (c0 :: cs) := rfl
    rw [NormalizePath_rooted _ (by rw [hq]; rfl)]
    rw [hq]
    have hsplit : splitSlash ('/' :: joinSlash (c0 :: cs)) = [] :: (c0 :: cs) := by
      rw [splitSlash, if_pos rfl]
      rw [splitSlash_joinSlash (c0 :: cs) (by simp) (fun c hcm => (hnorm c hcm).2.2.2)]
    rw [hsplit]
    have hstack : cleanStack true ([] :: (c0 :: cs)) = c0 :: cs := by
      rw [cleanStack, List.foldl_cons]
      have h0 : cleanStep true [] [] = [] := by
        rw [cleanStep.eq_def, if_pos (Or.inl rfl)]
      rw [h0, foldl_cleanStep_pushes (c0 :: cs) hnorm []]
      simp
    rw [hstack]

theorem NormalizePath_ne_root_getLast (p : String) (h : NormalizePath p ≠ "/") :
    (NormalizePath p).data.getLast? ≠ some '/' := by
  by_cases h0 : p = ""
  · subst h0; exact absurd rfl h
  · have hgood : ∀ r : Bool, ∀ c ∈ cleanStack r (splitSlash p.data), GoodElem c :=
      fun r => cleanStack_good p.data
    rw [NormalizePath, if_neg h0]
    rw [NormalizePath, if_neg h0] at h
    by_cases h1 : cleanL p.data = ['.']
    · rw [if_pos h1] at h; exact absurd rfl h
    · rw [if_neg h1] at h ⊢
      have hshape : cleanL p.data ≠ [] ∧ (cleanL p.data).getLast? ≠ some '/' := by
        rw [cleanL, if_neg (by intro hnil; exact h1 (by rw [cleanL, if_pos hnil]))]
        by_cases hr : p.data.head? = some '/'
        · rw [if_pos hr]
          rcases hcs : cleanStack true (splitSlash p.data) with _ | ⟨c0, cs⟩
          · exfalso
            apply h
            rw [if_pos (by rw [cleanL, if_neg, if_pos hr, hcs]; rfl; intro hnil; rw [hnil] at hr; exact Option.noConfusion hr)]
            rw [cleanL, if_neg, if_pos hr, hcs]
            · rfl
            · intro hnil; rw [hnil] at hr; exact Option.noConfusion hr
          · have hj := joinSlash_getLast? (c0 :: cs) (by simp) (by rw [← hcs]; exact hgood true)
            constructor
            · simp
            · rcases hjs : joinSlash (c0 :: cs) with _ | ⟨w, ws⟩
              · exact absurd hjs hj.1
              · rw [List.getLast?_cons_cons, ← hjs]
                exact hj.2
        · rw [if_neg hr]
          by_cases hemp : cleanStack false (splitSlash p.data) = []
          · rw [if_pos hemp]
            exact ⟨by simp, by simp⟩
          · rw [if_neg hemp]
            rcases hcs : cleanStack false (splitSlash p.data) with _ | ⟨c0, cs⟩
            · exact absurd hcs hemp
            · exact joinSlash_getLast? (c0 :: cs) (by simp) (by rw [← hcs]; exact hgood false)
      by_cases h2 : (cleanL p.data).head? = some '/'
      · rw [if_pos h2] at h ⊢
        exact hshape.2
      · rw [if_neg h2] at h ⊢
        rcases hcl : cleanL p.data with _ | ⟨w, ws⟩
        · exact absurd hcl hshape.1
        · show (('/' :: w :: ws).getLast?) ≠ some '/'
          rw [List.getLast?_cons_cons]
          rw [hcl] at hshape
          exact hshape.2

theorem NormalizePath_resolved (p : String) (h : p.data.head? = some '/') :
    ∀ c ∈ splitSlash (NormalizePath p).data, c ≠ ['.'] ∧ c ≠ ['.', '.'] := by
  rw [NormalizePath_rooted p h]
  have hnorm := cleanStack_normal p.data
  rcases hc : cleanStack true (splitSlash p.data) with _ | ⟨c0, cs⟩
  · intro c hcm
    have hspl : splitSlash (String.mk ('/' :: joinSlash [])).data = [[], []] := by decide
    rw [hspl] at hcm
    rcases List.mem_cons.mp hcm with h1 | h1
    · subst h1; exact ⟨by simp, by simp⟩
    · have : c = [] := by simpa using h1
      subst this; exact ⟨by simp, by simp⟩
  · rw [hc] at hnorm
    intro c hcm
    have hq : (String.mk ('/' :: joinSlash (c0 :: cs))).data = '/' :: joinSlash (c0 :: cs) := rfl
    rw [hq] at hcm
    rw [splitSlash, if_pos rfl,
      splitSlash_joinSlash (c0 :: cs) (by simp) (fun d hd => (hnorm d hd).2.2.2)] at hcm
    rcases List.mem_cons.mp hcm with h1 | h1
    · subst h1; exact ⟨by simp, by simp⟩
    · exact ⟨(hnorm c h1).2.1, (hnorm c h1).2.2.1⟩

/-! ## Glob matcher (fs.go: globMatch) -/

/-- One step semantics of the `globMatch` two-pointer loop, written on
suffixes: `p` and `n` are the unread pattern/name suffixes (`pattern[px:]`,
`name[nx:]`), and `star` records, for the most recent `*`, the pattern
suffix after it and the name suffix from its match start (`pattern[starPx+1:]`,
`name[starNx:]`).  The loop advances on `?`/equal characters (checked first,
exactly as in the source, so a pattern `*` can be consumed as a literal
against a name `*`), records a `*`, or backtracks to the last `*` with one
more name character absorbed.  The fuel argument only bounds the iteration
count; `globFuel` below always dominates the loop's termination rank. -/
def globLoop : Nat → List Char → List Char → Option (List Char × List Char) → Bool
  | 0, _, _, _ => false
  | fuel + 1, p, n, star =>
    match n with
    | [] => (p.dropWhile (fun c => c = '*')).isEmpty
    | c :: ns =>
      match p with
      | q :: ps =>
        if q = '?' ∨ q = c then globLoop fuel ps ns star
        else if q = '*' then globLoop fuel ps (c :: ns) (some (ps, c :: ns))
        else
          match star with
          | some (sp, sn) => globLoop fuel sp sn.tail (some (sp, sn.tail))
          | none => false
      | [] =>
        match star with
        | some (sp, sn) => globLoop fuel sp sn.tail (some (sp, sn.tail))
        | none => false

/-- Fuel that dominates the loop's lexicographic termination rank. -/
def globFuel (p n : List Char) : Nat :=
  (2 * n.length + 2) * ((n.length + 1) * (p.length + 1))

/-- Embedding of `globMatch`: the `"*"` fast path, then the two-pointer
loop followed by the trailing-star sweep (folded into `globLoop`'s base
case). -/
def globMatch (pattern name : String) : Bool :=
  if pattern = "*" then true
  else globLoop (globFuel pattern.data name.data) pattern.data name.data none

example : globMatch "*.txt" "hello.txt" = true := by decide
example : globMatch "h?llo" "hello" = true := by decide
example : globMatch "h?llo" "heello" = false := by decide
example : globMatch "a*b*c" "aXbYc" = true := by decide
example : globMatch "*" "anything" = true := by decide
example : globMatch "ell" "hello" = false := by decide

/-- Declarative glob semantics as the specification states them: a literal
character matches itself, `?` matches exactly one arbitrary character, `*`
matches any run of characters (possibly empty), and the pattern must match
the entire name. -/
inductive GlobMatches : List Char → List Char → Prop
  | nil : GlobMatches [] []
  | lit {q : Char} {p n : List Char} : q ≠ '*' → q ≠ '?' →
      GlobMatches p n → GlobMatches (q :: p) (q :: n)
  | one {c : Char} {p n : List Char} :
      GlobMatches p n → GlobMatches ('?' :: p) (c :: n)
  | star {p : List Char} (run : List Char) {n : List Char} :
      GlobMatches p n → GlobMatches ('*' :: p) (run ++ n)

theorem GlobMatches.nil_left {n : List Char} (h : GlobMatches [] n) : n = [] := by
  cases h; rfl

theorem GlobMatches.star_drop_iff {q : List Char} {t : List Char} :
    GlobMatches ('*' :: q) t ↔ ∃ k, k ≤ t.length ∧ GlobMatches q (t.drop k) := by
  constructor
  · intro h
    cases h with
    | lit h1 h2 h3 => exact absurd rfl h1
    | star run h' =>
      refine ⟨run.length, by simp, ?_⟩
      rw [List.drop_left]
      exact h'
  · rintro ⟨k, hk, h⟩
    have := GlobMatches.star (p := q) (t.take k) h
    rwa [List.take_append_drop] at this

theorem GlobMatches.cons_inv {q : Char} {p m : List Char} (h : GlobMatches (q :: p) m)
    (hq : q ≠ '*') : ∃ c n, m = c :: n ∧ (q = '?' ∨ q = c) ∧ GlobMatches p n := by
  cases h with
  | lit h1 h2 h3 => exact ⟨q, _, rfl, Or.inr rfl, h3⟩
  | one h3 => exact ⟨_, _, rfl, Or.inl rfl, h3⟩
  | star run h3 => exact absurd rfl hq

theorem GlobMatches.cons_iff {q : Char} {p : List Char} {c : Char} {n : List Char}
    (hq : q ≠ '*') :
    GlobMatches (q :: p) (c :: n) ↔ ((q = '?' ∨ q = c) ∧ GlobMatches p n) := by
  constructor
  · intro h
    rcases h.cons_inv hq with ⟨c', n', he, hqc, hg⟩
    injection he with h1 h2
    subst h1; subst h2
    exact ⟨hqc, hg⟩
  · rintro ⟨hqc, h⟩
    by_cases hq2 : q = '?'
    · subst hq2; exact GlobMatches.one h
    · rcases hqc with h1 | h1
      · exact absurd h1 hq2
      · subst h1; exact GlobMatches.lit hq hq2 h

theorem GlobMatches.not_cons_nil {q : Char} {p : List Char} (hq : q ≠ '*') :
    ¬ GlobMatches (q :: p) [] := by
  intro h
  rcases h.cons_inv hq with ⟨c, n, he, _, _⟩
  exact List.noConfusion he

theorem GlobMatches.all_star_nil {p : List Char} (h : ∀ c ∈ p, c = '*') :
    GlobMatches p [] := by
  induction p with
  | nil => exact GlobMatches.nil
  | cons q p ih =>
    have hq : q = '*' := h q (List.mem_cons_self _ _)
    subst hq
    have := GlobMatches.star (p := p) [] (ih (fun c hc => h c (List.mem_cons_of_mem _ hc)))
    simpa using this

theorem GlobMatches.nil_all_star {p m : List Char} (h : GlobMatches p m) :
    m = [] → ∀ c ∈ p, c = '*' := by
  induction h with
  | nil => intro _ c hc; exact absurd hc (by simp)
  | lit h1 h2 h3 ih => intro hm; exact absurd hm (by simp)
  | one h3 ih => intro hm; exact absurd hm (by simp)
  | star run h3 ih =>
    intro hm c hc
    have hrun : run = [] := by
      rcases hr : run with _ | ⟨a, as⟩
      · rfl
      · rw [hr] at hm; exact absurd hm (by simp)
    subst hrun
    simp only [List.nil_append] at hm
    rcases List.mem_cons.mp hc with h1 | h1
    · exact h1
    · exact ih hm c h1

theorem GlobMatches.prefix_decomp {d : List Char} :
    '*' ∉ d → ∀ {q t : List Char}, GlobMatches (d ++ q) t →
    ∃ t1 t2, t = t1 ++ t2 ∧ t1.length = d.length ∧ GlobMatches q t2 := by
  induction d with
  | nil =>
    intro _ q t h
    exact ⟨[], t, rfl, rfl, h⟩
  | cons e d ih =>
    intro hd q t h
    have he : e ≠ '*' := fun hh => hd (hh ▸ List.mem_cons_self _ _)
    rw [List.cons_append] at h
    rcases h.cons_inv he with ⟨c, n, rfl, _, hg⟩
    rcases ih (fun hm => hd (List.mem_cons_of_mem _ hm)) hg with ⟨t1, t2, ht, hl, hgq⟩
    exact ⟨c :: t1, t2, by rw [ht]; rfl, by simp [hl], hgq⟩

theorem GlobMatches.star_of_suffix {q t' t : List Char}
    (h : GlobMatches ('*' :: q) t') (hs : t' <:+ t) : GlobMatches ('*' :: q) t := by
  rcases GlobMatches.star_drop_iff.mp h with ⟨k, hk, hg⟩
  rcases hs with ⟨u, hu⟩
  apply GlobMatches.star_drop_iff.mpr
  refine ⟨u.length + k, ?_, ?_⟩
  · rw [← hu, List.length_append]
    omega
  · rw [← hu]
    have hdd : (u ++ t').drop (u.length + k) = t'.drop k := by
      rw [← List.drop_drop, List.drop_left]
    rw [hdd]
    exact hg

/-- Loop invariant tying a machine state to the enclosing match: the pattern
residue `p` extends to the recorded star's residue `sp` by a star-free
consumed segment `d` whose length is exactly the name progress made inside
the star region. -/
def LoopInv (pattern name p n : List Char) :
    Option (List Char × List Char) → Prop
  | none => p <:+ pattern ∧ n <:+ name
  | some (sp, sn) => p <:+ pattern ∧ n <:+ name ∧ sp <:+ pattern ∧ sn <:+ name ∧
      ∃ d, sp = d ++ p ∧ '*' ∉ d ∧ n = sn.drop d.length ∧ d.length ≤ sn.length

/-- The declarative meaning of a machine state: the current attempt
succeeds, or some further backtrack of the recorded star succeeds. -/
def LoopSpec (p n : List Char) : Option (List Char × List Char) → Prop
  | none => GlobMatches p n
  | some (sp, sn) => GlobMatches p n ∨
      ∃ k, 1 ≤ k ∧ k ≤ sn.length ∧ GlobMatches sp (sn.drop k)

/-- Flattened lexicographic termination rank of a machine state. -/
def loopRank (P N : Nat) (p n : List Char) : Option (List Char × List Char) → Nat
  | none => (2 * n.length + 1) * ((N + 1) * (P + 1)) + n.length * (P + 1) + p.length
  | some (_, sn) => (2 * sn.length) * ((N + 1) * (P + 1)) + n.length * (P + 1) + p.length

theorem rank_add_lt {a a' b b' c c' : Nat} (ha : a ≤ a') (hb : b ≤ b') (hc : c < c') :
    a + b + c < a' + b' + c' := by omega

theorem loopSpec_backtrack {sp : List Char} {s0 : Char} {sr : List Char} {p n : List Char}
    (hgmf : ¬ GlobMatches p n) :
    LoopSpec p n (some (sp, s0 :: sr)) ↔ LoopSpec sp sr (some (sp, sr)) := by
  show (GlobMatches p n ∨ ∃ k, 1 ≤ k ∧ k ≤ (s0 :: sr).length ∧ GlobMatches sp ((s0 :: sr).drop k))
    ↔ (GlobMatches sp sr ∨ ∃ k, 1 ≤ k ∧ k ≤ sr.length ∧ GlobMatches sp (sr.drop k))
  constructor
  · rintro (h | ⟨k, hk1, hk2, hgm⟩)
    · exact absurd h hgmf
    · rcases Nat.exists_eq_add_of_le hk1 with ⟨j, rfl⟩
      rw [Nat.add_comm 1 j, List.drop_succ_cons] at hgm
      rcases Nat.eq_zero_or_pos j with hj | hj
      · subst hj
        rw [List.drop_zero] at hgm
        exact Or.inl hgm
      · refine Or.inr ⟨j, hj, ?_, hgm⟩
        simp only [List.length_cons] at hk2
        omega
  · rintro (h | ⟨k, hk1, hk2, hgm⟩)
    · exact Or.inr ⟨1, le_refl 1, by simp, by simpa using h⟩
    · refine Or.inr ⟨k + 1, by omega, by simp; omega, ?_⟩
      rw [List.drop_succ_cons]
      exact hgm

theorem loopSpec_star {ps n : List Char} :
    LoopSpec ps n (some (ps, n)) ↔ GlobMatches ('*' :: ps) n := by
  show (GlobMatches ps n ∨ ∃ k, 1 ≤ k ∧ k ≤ n.length ∧ GlobMatches ps (n.drop k)) ↔ _
  rw [GlobMatches.star_drop_iff]
  constructor
  · rintro (h | ⟨k, hk1, hk2, hgm⟩)
    · exact ⟨0, by omega, by simpa using h⟩
    · exact ⟨k, hk2, hgm⟩
  · rintro ⟨k, hk, hgm⟩
    rcases Nat.eq_zero_or_pos k with hk0 | hk0
    · subst hk0
      rw [List.drop_zero] at hgm
      exact Or.inl hgm
    · exact Or.inr ⟨k, hk0, hk, hgm⟩

theorem alt_star_absorb {sp sn : List Char} {d ps : List Char} {n : List Char}
    (hd1 : sp = d ++ '*' :: ps) (hd2 : '*' ∉ d) (hd3 : n = sn.drop d.length)
    {k : Nat} (hgm : GlobMatches sp (sn.drop k)) :
    GlobMatches ('*' :: ps) n := by
  rw [hd1] at hgm
  rcases GlobMatches.prefix_decomp hd2 hgm with ⟨t1, t2, ht, hl, hg2⟩
  have ht2 : t2 = (sn.drop k).drop t1.length := by
    rw [ht, List.drop_left]
  have hsuffix : t2 <:+ n := by
    rw [ht2, List.drop_drop, hd3]
    have : sn.drop (k + t1.length) = (sn.drop d.length).drop k := by
      rw [List.drop_drop, hl, Nat.add_comm]
    rw [this]
    exact List.drop_suffix k _
  exact GlobMatches.star_of_suffix hg2 hsuffix

theorem globLoop_correct {pattern name : List Char} (hname : '*' ∉ name) :
    ∀ fuel p n star, LoopInv pattern name p n star →
      loopRank pattern.length name.length p n star < fuel →
      (globLoop fuel p n star = true ↔ LoopSpec p n star) := by
  intro fuel
  induction fuel with
  | zero => intro p n star _ hrank; exact absurd hrank (by omega)
  | succ fuel ih =>
    intro p n star hinv hrank
    rcases n with _ | ⟨c, ns⟩
    · -- name exhausted: the machine sweeps trailing stars and stops
      have hred : globLoop (fuel + 1) p [] star
          = (p.dropWhile (fun c => c = '*')).isEmpty := rfl
      rw [hred]
      have hiff : (p.dropWhile (fun c => c = '*')).isEmpty = true ↔ ∀ x ∈ p, x = '*' := by
        rw [List.isEmpty_iff, List.dropWhile_eq_nil_iff]
        simp
      rcases star with _ | ⟨sp, sn⟩
      · rw [hiff]
        show _ ↔ GlobMatches p []
        constructor
        · exact GlobMatches.all_star_nil
        · intro h; exact h.nil_all_star rfl
      · rw [hiff]
        show _ ↔ (GlobMatches p [] ∨ ∃ k, 1 ≤ k ∧ k ≤ sn.length ∧ GlobMatches sp (sn.drop k))
        rcases hinv with ⟨hp, hn, hsp, hsn, d, hd1, hd2, hd3, hd4⟩
        constructor
        · intro h; exact Or.inl (GlobMatches.all_star_nil h)
        · rintro (h | ⟨k, hk1, hk2, hgm⟩)
          · exact h.nil_all_star rfl
          · exfalso
            have hlen : sn.length ≤ d.length := List.drop_eq_nil_iff.mp hd3.symm
            rw [hd1] at hgm
            rcases GlobMatches.prefix_decomp hd2 hgm with ⟨t1, t2, ht, hl, _⟩
            have hlength := congrArg List.length ht
            rw [List.length_drop, List.length_append, hl] at hlength
            omega
    · -- at least one name character remains
      have hcname : c ∈ name := by
        rcases star with _ | ⟨sp, sn⟩
        · exact hinv.2.subset (List.mem_cons_self c ns)
        · exact hinv.2.1.subset (List.mem_cons_self c ns)
      have hcstar : c ≠ '*' := fun hh => hname (hh ▸ hcname)
      rcases p with _ | ⟨q, ps⟩
      · -- pattern exhausted: backtrack or fail
        rcases star with _ | ⟨sp, sn⟩
        · have hred : globLoop (fuel + 1) [] (c :: ns) none = false := rfl
          rw [hred]
          show false = true ↔ GlobMatches [] (c :: ns)
          constructor
          · intro h; exact absurd h (by simp)
          · intro h; exact absurd h.nil_left (by simp)
        · rcases hinv with ⟨hp, hn, hsp, hsn, d, hd1, hd2, hd3, hd4⟩
          have hsn_ne : sn ≠ [] := by
            intro hnil
            rw [hnil, List.drop_eq_nil_iff.mpr (by simp)] at hd3
            exact List.noConfusion hd3
          rcases hsnc : sn with _ | ⟨s0, sr⟩
          · exact absurd hsnc hsn_ne
          · subst hsnc
            have hred : globLoop (fuel + 1) [] (c :: ns) (some (sp, s0 :: sr))
                = globLoop fuel sp sr (some (sp, sr)) := rfl
            rw [hred]
            have hinv' : LoopInv pattern name sp sr (some (sp, sr)) := by
              refine ⟨hsp, ?_, hsp, ?_, [], by simp, by simp, by simp, by simp⟩
              · exact (List.suffix_cons s0 sr).trans hsn
              · exact (List.suffix_cons s0 sr).trans hsn
            have hrank' : loopRank pattern.length name.length sp sr (some (sp, sr)) < fuel := by
              have hold : loopRank pattern.length name.length [] (c :: ns) (some (sp, s0 :: sr))
                  = (2 * (sr.length + 1)) * ((name.length + 1) * (pattern.length + 1))
                    + (ns.length + 1) * (pattern.length + 1) + 0 := by
                simp [loopRank]
              have hnew : loopRank pattern.length name.length sp sr (some (sp, sr))
                  = (2 * sr.length) * ((name.length + 1) * (pattern.length + 1))
                    + sr.length * (pattern.length + 1) + sp.length := by
                simp [loopRank]
              rw [hold] at hrank
              rw [hnew]
              have hb1 : sr.length ≤ name.length := by
                have := hsn.length_le
                simp at this
                omega
              have hb2 : sp.length ≤ pattern.length := hsp.length_le
              have hkey : sr.length * (pattern.length + 1) + sp.length
                  < (name.length + 1) * (pattern.length + 1) := by
                have h1 : sr.length * (pattern.length + 1) ≤ name.length * (pattern.length + 1) :=
                  mul_le_mul_right' hb1 _
                have h2 : (name.length + 1) * (pattern.length + 1)
                    = name.length * (pattern.length + 1) + (pattern.length + 1) := by ring
                omega
              have hsplit : (2 * (sr.length + 1)) * ((name.length + 1) * (pattern.length + 1))
                  = (2 * sr.length) * ((name.length + 1) * (pattern.length + 1))
                    + 2 * ((name.length + 1) * (pattern.length + 1)) := by ring
              omega
            rw [ih sp sr (some (sp, sr)) hinv' hrank']
            have hgmf : ¬ GlobMatches ([] : List Char) (c :: ns) := by
              intro h; exact absurd h.nil_left (by simp)
            exact (loopSpec_backtrack hgmf).symm
      · -- pattern has a head character q
        by_cases h1 : q = '?' ∨ q = c
        · -- advance
          have hqstar : q ≠ '*' := by
            rcases h1 with h | h
            · rw [h]; decide
            · rw [h]; exact hcstar
          have hred : globLoop (fuel + 1) (q :: ps) (c :: ns) star
              = globLoop fuel ps ns star := by
            rcases star with _ | ⟨sp0, sn0⟩
            · show (if q = '?' ∨ q = c then globLoop fuel ps ns none
                else if q = '*' then globLoop fuel ps (c :: ns) (some (ps, c :: ns))
                else false) = globLoop fuel ps ns none
              rw [if_pos h1]
            · show (if q = '?' ∨ q = c then globLoop fuel ps ns (some (sp0, sn0))
                else if q = '*' then globLoop fuel ps (c :: ns) (some (ps, c :: ns))
                else globLoop fuel sp0 sn0.tail (some (sp0, sn0.tail)))
                = globLoop fuel ps ns (some (sp0, sn0))
              rw [if_pos h1]
          rw [hred]
          have hps : ps <:+ pattern := by
            rcases star with _ | ⟨sp, sn⟩
            · exact (List.suffix_cons q ps).trans hinv.1
            · exact (List.suffix_cons q ps).trans hinv.1
          have hns : ns <:+ name := by
            rcases star with _ | ⟨sp, sn⟩
            · exact (List.suffix_cons c ns).trans hinv.2
            · exact (List.suffix_cons c ns).trans hinv.2.1
          rcases star with _ | ⟨sp, sn⟩
          · have hinv' : LoopInv pattern name ps ns none := ⟨hps, hns⟩
            have hrank' : loopRank pattern.length name.length ps ns none < fuel := by
              have hstep : loopRank pattern.length name.length ps ns none
                  < loopRank pattern.length name.length (q :: ps) (c :: ns) none := by
                simp only [loopRank]
                refine rank_add_lt (mul_le_mul_right' (by simp) _)
                  (mul_le_mul_right' (by simp) _) (by simp)
              omega
            rw [ih ps ns none hinv' hrank']
            show GlobMatches ps ns ↔ GlobMatches (q :: ps) (c :: ns)
            rw [GlobMatches.cons_iff hqstar]
            constructor
            · intro h; exact ⟨h1, h⟩
            · intro h; exact h.2
          · rcases hinv with ⟨hp, hn, hsp, hsn, d, hd1, hd2, hd3, hd4⟩
            have hdlt : d.length < sn.length := by
              by_contra hge
              rw [List.drop_eq_nil_iff.mpr (by omega)] at hd3
              exact List.noConfusion hd3
            have hinv' : LoopInv pattern name ps ns (some (sp, sn)) := by
              refine ⟨hps, hns, hsp, hsn, d ++ [q], ?_, ?_, ?_, ?_⟩
              · rw [hd1, List.append_cons]
              · intro hm
                rcases List.mem_append.mp hm with hm | hm
                · exact hd2 hm
                · simp only [List.mem_singleton] at hm
                  exact hqstar hm.symm
              · rw [List.length_append, List.length_singleton]
                have : sn.drop (d.length + 1) = (sn.drop d.length).drop 1 := by
                  rw [List.drop_drop, Nat.add_comm]
                rw [this, ← hd3, List.drop_succ_cons, List.drop_zero]
              · rw [List.length_append, List.length_singleton]
                omega
            have hrank' : loopRank pattern.length name.length ps ns (some (sp, sn)) < fuel := by
              have hstep : loopRank pattern.length name.length ps ns (some (sp, sn))
                  < loopRank pattern.length name.length (q :: ps) (c :: ns) (some (sp, sn)) := by
                simp only [loopRank]
                refine rank_add_lt (le_refl _) (mul_le_mul_right' (by simp) _) (by simp)
              omega
            rw [ih ps ns (some (sp, sn)) hinv' hrank']
            show (GlobMatches ps ns ∨ _) ↔ (GlobMatches (q :: ps) (c :: ns) ∨ _)
            rw [GlobMatches.cons_iff hqstar]
            constructor
            · rintro (h | h)
              · exact Or.inl ⟨h1, h⟩
              · exact Or.inr h
            · rintro (h | h)
              · exact Or.inl h.2
              · exact Or.inr h
        · by_cases h2 : q = '*'
          · -- record a star
            subst h2
            have hred : globLoop (fuel + 1) ('*' :: ps) (c :: ns) star
                = globLoop fuel ps (c :: ns) (some (ps, c :: ns)) := by
              rcases star with _ | ⟨sp0, sn0⟩
              · show (if '*' = '?' ∨ '*' = c then globLoop fuel ps ns none
                  else if '*' = '*' then globLoop fuel ps (c :: ns) (some (ps, c :: ns))
                  else false) = globLoop fuel ps (c :: ns) (some (ps, c :: ns))
                rw [if_neg h1, if_pos rfl]
              · show (if '*' = '?' ∨ '*' = c then globLoop fuel ps ns (some (sp0, sn0))
                  else if '*' = '*' then globLoop fuel ps (c :: ns) (some (ps, c :: ns))
                  else globLoop fuel sp0 sn0.tail (some (sp0, sn0.tail)))
                  = globLoop fuel ps (c :: ns) (some (ps, c :: ns))
                rw [if_neg h1, if_pos rfl]
            rw [hred]
            have hps : ps <:+ pattern := by
              rcases star with _ | ⟨sp, sn⟩
              · exact (List.suffix_cons '*' ps).trans hinv.1
              · exact (List.suffix_cons '*' ps).trans hinv.1
            have hcns : (c :: ns) <:+ name := by
              rcases star with _ | ⟨sp, sn⟩
              · exact hinv.2
              · exact hinv.2.1
            have hinv' : LoopInv pattern name ps (c :: ns) (some (ps, c :: ns)) :=
              ⟨hps, hcns, hps, hcns, [], by simp, by simp, by simp, by simp⟩
            have hrank' : loopRank pattern.length name.length ps (c :: ns)
                (some (ps, c :: ns)) < fuel := by
              rcases star with _ | ⟨sp, sn⟩
              · have hstep : loopRank pattern.length name.length ps (c :: ns)
                    (some (ps, c :: ns))
                    < loopRank pattern.length name.length ('*' :: ps) (c :: ns) none := by
                  simp only [loopRank]
                  refine rank_add_lt (mul_le_mul_right' (by simp) _)
                    (le_refl _) (by simp)
                omega
              · rcases hinv with ⟨hp, hn, hsp, hsn, d, hd1, hd2, hd3, hd4⟩
                have hle : (c :: ns).length ≤ sn.length := by
                  rw [hd3, List.length_drop]
                  omega
                have hstep : loopRank pattern.length name.length ps (c :: ns)
                    (some (ps, c :: ns))
                    < loopRank pattern.length name.length ('*' :: ps) (c :: ns)
                      (some (sp, sn)) := by
                  simp only [loopRank]
                  refine rank_add_lt (mul_le_mul_right' (by omega) _)
                    (le_refl _) (by simp)
                omega
            rw [ih ps (c :: ns) (some (ps, c :: ns)) hinv' hrank']
            rw [loopSpec_star]
            rcases star with _ | ⟨sp, sn⟩
            · exact Iff.rfl
            · rcases hinv with ⟨hp, hn, hsp, hsn, d, hd1, hd2, hd3, hd4⟩
              show _ ↔ (GlobMatches ('*' :: ps) (c :: ns) ∨
                ∃ k, 1 ≤ k ∧ k ≤ sn.length ∧ GlobMatches sp (sn.drop k))
              constructor
              · intro h; exact Or.inl h
              · rintro (h | ⟨k, hk1, hk2, hgm⟩)
                · exact h
                · exact alt_star_absorb hd1 hd2 hd3 hgm
          · -- mismatch: backtrack or fail
            have hgmf : ¬ GlobMatches (q :: ps) (c :: ns) := by
              intro h
              rcases (GlobMatches.cons_iff h2).mp h with ⟨hqc, _⟩
              exact h1 hqc
            rcases star with _ | ⟨sp, sn⟩
            · have hred : globLoop (fuel + 1) (q :: ps) (c :: ns) none = false := by
                show (if q = '?' ∨ q = c then globLoop fuel ps ns none
                  else if q = '*' then globLoop fuel ps (c :: ns) (some (ps, c :: ns))
                  else false) = false
                rw [if_neg h1, if_neg h2]
              rw [hred]
              show false = true ↔ GlobMatches (q :: ps) (c :: ns)
              constructor
              · intro h; exact absurd h (by simp)
              · intro h; exact absurd h hgmf
            · rcases hinv with ⟨hp, hn, hsp, hsn, d, hd1, hd2, hd3, hd4⟩
              have hsn_ne : sn ≠ [] := by
                intro hnil
                rw [hnil, List.drop_eq_nil_iff.mpr (by simp)] at hd3
                exact List.noConfusion hd3
              rcases hsnc : sn with _ | ⟨s0, sr⟩
              · exact absurd hsnc hsn_ne
              · subst hsnc
                have hred : globLoop (fuel + 1) (q :: ps) (c :: ns) (some (sp, s0 :: sr))
                    = globLoop fuel sp sr (some (sp, sr)) := by
                  show (if q = '?' ∨ q = c then globLoop fuel ps ns (some (sp, s0 :: sr))
                    else if q = '*' then globLoop fuel ps (c :: ns) (some (ps, c :: ns))
                    else globLoop fuel sp (s0 :: sr).tail (some (sp, (s0 :: sr).tail)))
                    = globLoop fuel sp sr (some (sp, sr))
                  rw [if_neg h1, if_neg h2]
                  rfl
                rw [hred]
                have hinv' : LoopInv pattern name sp sr (some (sp, sr)) := by
                  refine ⟨hsp, ?_, hsp, ?_, [], by simp, by simp, by simp, by simp⟩
                  · exact (List.suffix_cons s0 sr).trans hsn
                  · exact (List.suffix_cons s0 sr).trans hsn
                have hrank' : loopRank pattern.length name.length sp sr (some (sp, sr))
                    < fuel := by
                  have hold : loopRank pattern.length name.length (q :: ps) (c :: ns)
                      (some (sp, s0 :: sr))
                      = (2 * (sr.length + 1)) * ((name.length + 1) * (pattern.length + 1))
                        + (ns.length + 1) * (pattern.length + 1) + (ps.length + 1) := by
                    simp [loopRank]
                  have hnew : loopRank pattern.length name.length sp sr (some (sp, sr))
                      = (2 * sr.length) * ((name.length + 1) * (pattern.length + 1))
                        + sr.length * (pattern.length + 1) + sp.length := by
                    simp [loopRank]
                  rw [hold] at hrank
                  rw [hnew]
                  have hb1 : sr.length ≤ name.length := by
                    have := hsn.length_le
                    simp at this
                    omega
                  have hb2 : sp.length ≤ pattern.length := hsp.length_le
                  have hkey : sr.length * (pattern.length + 1) + sp.length
                      < (name.length + 1) * (pattern.length + 1) := by
                    have hx1 : sr.length * (pattern.length + 1)
                        ≤ name.length * (pattern.length + 1) :=
                      mul_le_mul_right' hb1 _
                    have hx2 : (name.length + 1) * (pattern.length + 1)
                        = name.length * (pattern.length + 1) + (pattern.length + 1) := by ring
                    omega
                  have hsplit : (2 * (sr.length + 1)) * ((name.length + 1) * (pattern.length + 1))
                      = (2 * sr.length) * ((name.length + 1) * (pattern.length + 1))
                        + 2 * ((name.length + 1) * (pattern.length + 1)) := by ring
                  omega
                rw [ih sp sr (some (sp, sr)) hinv' hrank']
                exact (loopSpec_backtrack hgmf).symm

/-! ## Metadata codec (meta.go) -/

/-- Entry types are stored as strings in the `type` field of the metadata
hash; `MetaFromMap` round-trips arbitrary strings (a missing field parses
to `""`), so the type field is embedded as a `String`. -/
def TypeDir : String := "dir"

def TypeFile : String := "file"

def TypeSymlink : String := "symlink"

/-- Embedding of the `Metadata` struct (sizes and timestamps are `int64`). -/
structure Metadata where
  type : String
  mode : String
  uid : String
  gid : String
  size : Int
  ctime : Int
  mtime : Int
  atime : Int
  linkTarget : String
deriving DecidableEq, Repr

/-- Embedding of `NewDirMeta`. -/
def NewDirMeta (mode : String) (now : Int) : Metadata :=
  { type := TypeDir, mode := if mode = "" then "0755" else mode, uid := "0",
    gid := "0", size := 0, ctime := now, mtime := now, atime := now,
    linkTarget := "" }

/-- Embedding of `NewFileMeta`. -/
def NewFileMeta (mode : String) (size : Int) (now : Int) : Metadata :=
  { type := TypeFile, mode := if mode = "" then "0644" else mode, uid := "0",
    gid := "0", size := size, ctime := now, mtime := now, atime := now,
    linkTarget := "" }

/-- Embedding of `NewSymlinkMeta`. -/
def NewSymlinkMeta (target : String) (now : Int) : Metadata :=
  { type := TypeSymlink, mode := "0777", uid := "0", gid := "0", size := 0,
    ctime := now, mtime := now, atime := now, linkTarget := target }

/-- `MetaFromMap` applied to the empty hash of a missing key: every field
parses to its zero value (`ParseInt` failures are discarded). -/
def zeroMeta : Metadata :=
  { type := "", mode := "", uid := "", gid := "", size := 0, ctime := 0,
    mtime := 0, atime := 0, linkTarget := "" }

/-! ## Backend store

The Redis state for the active volume: `KeyGen` maps a path injectively to
one key per class (`fs:V:meta:{p}`, `fs:V:data:{p}`, `fs:V:dir:{p}`,
`fs:V:xattr:{p}`), so the backend is embedded as four path-indexed maps.
`SMEMBERS` of a missing key is the empty set, hence membership sets are
total with default `[]`. -/

structure Store where
  meta : String → Option Metadata
  data : String → Option String
  dirs : String → List String
  xattr : String → Option String

/-- Point update of a path-indexed map. -/
def upd {α : Type} (f : String → α) (k : String) (v : α) : String → α :=
  fun x => if x = k then v else f x

/-- Redis `SADD` of one member. -/
def sadd (l : List String) (x : String) : List String :=
  if x ∈ l then l else x :: l

/-- Redis `SREM` of one member. -/
def srem (l : List String) (x : String) : List String :=
  l.filter (fun y => y ≠ x)

/-- Error taxonomy of the engine operations (backend transport failures are
outside the model). -/
inductive FsErr
  | notFound
  | isADirectory
  | notADirectory
  | alreadyExists
  | notEmpty
  | tooManyLinks
  | cannotRemoveRoot
deriving DecidableEq, Repr

/-- A successful engine operation yields the externally observable states
after each committed transaction or single mutating command, in order; the
last one is the final state. -/
abbrev TxRun := Except FsErr (List Store)

/-- Final state of a run started from `s`. -/
def runFinal (s : Store) (r : TxRun) : Except FsErr Store :=
  match r with
  | .error e => .error e
  | .ok l => .ok (l.getLastD s)

/-! ## Engine operations (fs.go) -/

/-- Embedding of `Stat`: HGETALL of the metadata key; an empty hash is a
nil result. -/
def Stat (s : Store) (path : String) : Option Metadata := s.meta path

/-- Embedding of `Exists`: EXISTS on the metadata key. -/
def ExistsPath (s : Store) (path : String) : Bool := (s.meta path).isSome

/-- Embedding of `IsDir`: HGET of the `type` field compared with `dir`
(missing key or field gives false). -/
def IsDir (s : Store) (path : String) : Bool :=
  match s.meta path with
  | none => false
  | some m => m.type = TypeDir

/-- Embedding of `ReadDir`: SMEMBERS of the directory set key, with no
existence or type check on the target. -/
def ReadDir (s : Store) (path : String) : Except FsErr (List String) :=
  .ok (s.dirs path)

/-- Embedding of the `DirEntry` listing record (`Meta` is the result of
`MetaFromMap` on the child's hash, never nil: a missing child hash parses
to the zero metadata). -/
structure DirEntry where
  name : String
  meta : Metadata
deriving DecidableEq, Repr

/-- Embedding of `ReadDirWithMeta`: list the membership set, then pipeline
HGETALL for each child. -/
def ReadDirWithMeta (s : Store) (dirPath : String) : Except FsErr (List DirEntry) :=
  match ReadDir s dirPath with
  | .error e => .error e
  | .ok children =>
    .ok (children.map (fun child =>
      { name := child, meta := (s.meta (JoinPath dirPath child)).getD zeroMeta }))

/-- The single transaction committed by `createDir`: HSET of fresh dir
metadata plus SADD of the basename into the parent's membership set. -/
def createDirStep (s : Store) (path : String) (now : Int) : Store :=
  { s with
    meta := upd s.meta path (some (NewDirMeta "0755" now)),
    dirs := upd s.dirs (ParentPath path) (sadd (s.dirs (ParentPath path)) (BaseName path)) }

/-- Embedding of `createDir` as a one-transaction run. -/
def createDir (s : Store) (path : String) (now : Int) : TxRun :=
  .ok [createDirStep s path now]

/-- Embedding of the component walk of `mkdirParents`: split the normalized
path on `/`, skip empty parts, and create every component whose metadata
key is absent.  Components that already exist are skipped with no type
check. -/
def mkdirWalk (now : Int) : Store → List Char → List (List Char) → List Store
  | _, _, [] => []
  | s, current, part :: rest =>
    if part = [] then mkdirWalk now s current rest
    else
      if (s.meta (String.mk (current ++ '/' :: part))).isSome then
        mkdirWalk now s (current ++ '/' :: part) rest
      else
        createDirStep s (String.mk (current ++ '/' :: part)) now
          :: mkdirWalk now (createDirStep s (String.mk (current ++ '/' :: part)) now)
            (current ++ '/' :: part) rest

/-- Embedding of `mkdirParents` (one transaction per missing component). -/
def mkdirParents (s : Store) (path : String) (now : Int) : TxRun :=
  .ok (mkdirWalk now s [] (splitSlash path.data))

/-- Embedding of `Mkdir`. -/
def Mkdir (s : Store) (path : String) (parents : Bool) (now : Int) : TxRun :=
  let np := NormalizePath path
  if np = "/" then .ok []
  else if parents then mkdirParents s np now
  else if ¬ IsDir s (ParentPath np) then .error .notFound
  else if ExistsPath s np then .error .alreadyExists
  else createDir s np now

/-- Embedding of `Rmdir`: root is refused, the target must be a directory,
the membership set must be empty (SCARD), then one transaction deletes the
metadata, membership and xattr keys and removes the basename from the
parent's membership set. -/
def Rmdir (s : Store) (path : String) : TxRun :=
  let np := NormalizePath path
  if np = "/" then .error .cannotRemoveRoot
  else if ¬ IsDir s np then .error .notADirectory
  else if (s.dirs np).length > 0 then .error .notEmpty
  else
    .ok [{ s with
      meta := upd s.meta np none,
      dirs := upd (upd s.dirs np []) (ParentPath np)
        (srem ((upd s.dirs np []) (ParentPath np)) (BaseName np)),
      xattr := upd s.xattr np none }]

/-- Embedding of `Touch`: an existing path gets a single HSET bumping
mtime/atime; an absent path requires a directory parent and is created as
an empty file in one transaction. -/
def Touch (s : Store) (path : String) (now : Int) : TxRun :=
  let np := NormalizePath path
  match s.meta np with
  | some m =>
    .ok [{ s with meta := upd s.meta np (some { m with mtime := now, atime := now }) }]
  | none =>
    if ¬ IsDir s (ParentPath np) then .error .notFound
    else
      .ok [{ s with
        data := upd s.data np (some ""),
        meta := upd s.meta np (some (NewFileMeta "0644" 0 now)),
        dirs := upd s.dirs (ParentPath np) (sadd (s.dirs (ParentPath np)) (BaseName np)) }]

/-- Embedding of the `maxSymlinkDepth` constant. -/
def maxSymlinkDepth : Nat := 40

/-- The recursion of `ResolveSymlink`, driven by the remaining hop budget
`maxSymlinkDepth - depth`: zero budget means `depth >= maxSymlinkDepth`,
the too-many-links error.  A missing entry or a non-symlink resolves to the
path itself; a relative target is joined onto the link's own parent
directory. -/
def resolveSymlinkFuel (s : Store) : Nat → String → Except FsErr String
  | 0, _ => .error .tooManyLinks
  | fuel + 1, path =>
    match s.meta path with
    | none => .ok path
    | some m =>
      if m.type = TypeSymlink then
        resolveSymlinkFuel s fuel
          (if m.linkTarget.data.head? = some '/' then m.linkTarget
           else JoinPath (ParentPath path) m.linkTarget)
      else .ok path

/-- Embedding of `ResolveSymlink` at entry depth `depth`. -/
def ResolveSymlink (s : Store) (path : String) (depth : Nat) : Except FsErr String :=
  resolveSymlinkFuel s (maxSymlinkDepth - depth) path

/-- Embedding of `ReadFile` (returned value only; the post-read atime bump
is a metadata-only side effect whose result the source discards).  Missing
entry is an error, a directory is an error, a symlink is resolved first,
and a missing content key reads as the empty string (redis.Nil). -/
def ReadFile (s : Store) (path : String) : Except FsErr String :=
  let np := NormalizePath path
  match s.meta np with
  | none => .error .notFound
  | some m =>
    if m.type = TypeDir then .error .isADirectory
    else
      match (if m.type = TypeSymlink then ResolveSymlink s np 0 else .ok np) with
      | .error e => .error e
      | .ok p2 =>
        match s.data p2 with
        | none => .ok ""
        | some d => .ok d

/-- Embedding of `WriteFile`: overwrite of an existing non-directory entry
(one transaction: SET content + HSET size/mtime), or creation under a
directory parent (one transaction: SET + HSET full metadata + SADD). -/
def WriteFile (s : Store) (path content : String) (now : Int) : TxRun :=
  let np := NormalizePath path
  match s.meta np with
  | some m =>
    if m.type = TypeDir then .error .isADirectory
    else
      .ok [{ s with
        data := upd s.data np (some content),
        meta := upd s.meta np (some { m with size := content.length, mtime := now }) }]
  | none =>
    if ¬ IsDir s (ParentPath np) then .error .notFound
    else
      .ok [{ s with
        data := upd s.data np (some content),
        meta := upd s.meta np (some (NewFileMeta "0644" content.length now)),
        dirs := upd s.dirs (ParentPath np) (sadd (s.dirs (ParentPath np)) (BaseName np)) }]

/-- Embedding of `AppendFile`: an absent path delegates to `WriteFile`; an
existing non-directory gets TWO commits: first the APPEND+STRLEN
transaction, then a separate HSET of size (from the observed STRLEN) and
mtime.  Redis APPEND on a missing content key creates it. -/
def AppendFile (s : Store) (path content : String) (now : Int) : TxRun :=
  let np := NormalizePath path
  match s.meta np with
  | none => WriteFile s np content now
  | some m =>
    if m.type = TypeDir then .error .isADirectory
    else
      .ok [{ s with data := upd s.data np (some ((s.data np).getD "" ++ content)) },
        { s with
          data := upd s.data np (some ((s.data np).getD "" ++ content)),
          meta := upd s.meta np (some { m with
            size := ((s.data np).getD "" ++ content).length, mtime := now }) }]

/-- Embedding of `Remove`: root refused, target must exist and not be a
directory; one transaction deletes metadata, content and xattr keys and
removes the basename from the parent membership set. -/
def Remove (s : Store) (path : String) : TxRun :=
  let np := NormalizePath path
  if np = "/" then .error .cannotRemoveRoot
  else
    match s.meta np with
    | none => .error .notFound
    | some m =>
      if m.type = TypeDir then .error .isADirectory
      else
        .ok [{ s with
          meta := upd s.meta np none,
          data := upd s.data np none,
          xattr := upd s.xattr np none,
          dirs := upd s.dirs (ParentPath np) (srem (s.dirs (ParentPath np)) (BaseName np)) }]

/-- Embedding of `Symlink`: the link path must be absent and its parent a
directory; one transaction writes the symlink metadata (raw target string)
and adds the basename to the parent membership set. -/
def Symlink (s : Store) (target linkPath : String) (now : Int) : TxRun :=
  let np := NormalizePath linkPath
  if ExistsPath s np then .error .alreadyExists
  else if ¬ IsDir s (ParentPath np) then .error .notFound
  else
    .ok [{ s with
      meta := upd s.meta np (some (NewSymlinkMeta target now)),
      dirs := upd s.dirs (ParentPath np) (sadd (s.dirs (ParentPath np)) (BaseName np)) }]

/-- Embedding of `moveFile` on its success path (source metadata and
content keys present, so the transactional RENAMEs succeed): first one
transaction renaming the metadata and content keys and updating both
membership sets, then a separate best-effort RENAME of the xattr key whose
failure on a missing source is ignored. -/
def moveFile (s : Store) (src dst : String) : TxRun :=
  let d1 := upd s.dirs (ParentPath src) (srem (s.dirs (ParentPath src)) (BaseName src))
  let s1 : Store := { s with
    meta := upd (upd s.meta dst (s.meta src)) src none,
    data := upd (upd s.data dst (s.data src)) src none,
    dirs := upd d1 (ParentPath dst) (sadd (d1 (ParentPath dst)) (BaseName dst)) }
  let s2 : Store :=
    match s1.xattr src with
    | none => s1
    | some v => { s1 with xattr := upd (upd s1.xattr dst (some v)) src none }
  .ok [s1, s2]

/-! ## Claim theorems -/

/-- C8 counterexample: NormalizePath is not idempotent on the relative path
`..`: the first pass cleans it to `..` and force-prepends a slash, giving
`/..`, which a second pass collapses to `/`. -/
theorem c8_normalize_counterexample :
    NormalizePath ".." = "/.." ∧ NormalizePath (NormalizePath "..") = "/" ∧
    NormalizePath (NormalizePath "..") ≠ NormalizePath ".." :=
  ⟨by decide, by decide, by decide⟩

/-- C8 amended: NormalizePath always returns a leading-slash form with no
trailing slash except for the root itself, and on absolute inputs it is
idempotent and resolves every `.` and `..` element (hence also repeated
slashes).  Unrestricted idempotence fails exactly on relative inputs whose
cleaned form starts with `..`, which gain a leading slash on the first pass
that the second pass then resolves. -/
theorem c8_normalize_amended (p : String) :
    (NormalizePath p).data.head? = some '/' ∧
    (NormalizePath p ≠ "/" → (NormalizePath p).data.getLast? ≠ some '/') ∧
    (p.data.head? = some '/' → NormalizePath (NormalizePath p) = NormalizePath p) ∧
    (p.data.head? = some '/' →
      ∀ c ∈ splitSlash (NormalizePath p).data, c ≠ ['.'] ∧ c ≠ ['.', '.']) :=
  ⟨NormalizePath_head p, NormalizePath_ne_root_getLast p,
    NormalizePath_idem_rooted p, NormalizePath_resolved p⟩

/-- C8 witness at a concrete absolute path. -/
theorem c8_normalize_witness :
    (NormalizePath "/a//b/./../c/").data.head? = some '/' ∧
    NormalizePath (NormalizePath "/a//b/./../c/") = NormalizePath "/a//b/./../c/" :=
  ⟨(c8_normalize_amended "/a//b/./../c/").1,
    (c8_normalize_amended "/a//b/./../c/").2.2.1 (by decide)⟩

/-- C9 counterexample: the pattern `*a` declaratively matches the name
`*ba` (the `*` absorbs the run `*b`), but globMatch rejects it: the loop's
first branch consumes the pattern's `*` as a literal character against the
name's leading `*` before ever treating it as a wildcard. -/
theorem c9_glob_counterexample :
    GlobMatches ("*a".data) ("*ba".data) ∧ globMatch "*a" "*ba" = false := by
  constructor
  · exact GlobMatches.star (p := ['a']) ['*', 'b']
      (GlobMatches.lit (by decide) (by decide) GlobMatches.nil)
  · decide

/-- C9 amended: for every pattern and every name that does not itself
contain a literal `*`, globMatch accepts exactly when the pattern matches
the entire name under the declarative semantics (`*` any run including the
empty one, `?` exactly one character, literals themselves).  When the name
contains `*`, a pattern `*` aligned with it is consumed literally first and
matches can be missed. -/
theorem c9_glob_amended (pattern name : String) (h : '*' ∉ name.data) :
    globMatch pattern name = true ↔ GlobMatches pattern.data name.data := by
  rw [globMatch]
  by_cases hfast : pattern = "*"
  · rw [if_pos hfast, hfast]
    simp only [true_iff]
    have hstar := GlobMatches.star (p := []) name.data GlobMatches.nil
    simpa using hstar
  · rw [if_neg hfast]
    have hrank : loopRank pattern.data.length name.data.length pattern.data name.data none
        < globFuel pattern.data name.data := by
      simp only [loopRank, globFuel]
      have h1 : name.data.length * (pattern.data.length + 1) + pattern.data.length
          < (name.data.length + 1) * (pattern.data.length + 1) := by
        have hx : (name.data.length + 1) * (pattern.data.length + 1)
            = name.data.length * (pattern.data.length + 1) + (pattern.data.length + 1) := by
          ring
        omega
      have h2 : (2 * name.data.length + 2) * ((name.data.length + 1) * (pattern.data.length + 1))
          = (2 * name.data.length + 1) * ((name.data.length + 1) * (pattern.data.length + 1))
            + ((name.data.length + 1) * (pattern.data.length + 1)) := by
        ring
      omega
    exact globLoop_correct h (globFuel pattern.data name.data) pattern.data name.data none
      ⟨List.suffix_refl _, List.suffix_refl _⟩ hrank

/-- C9 witness: a concrete accepted pair, with the declarative derivation
obtained through the amended equivalence. -/
theorem c9_glob_witness : GlobMatches ("*.txt".data) ("notes.txt".data) :=
  (c9_glob_amended "*.txt" "notes.txt" (by decide)).mp (by decide)

instance {ε α : Type} [DecidableEq ε] [DecidableEq α] : DecidableEq (Except ε α) := fun x y =>
  match x, y with
  | .ok a, .ok b =>
    if h : a = b then isTrue (by rw [h])
    else isFalse (by intro hh; injection hh; contradiction)
  | .error a, .error b =>
    if h : a = b then isTrue (by rw [h])
    else isFalse (by intro hh; injection hh; contradiction)
  | .ok _, .error _ => isFalse (by intro hh; exact Except.noConfusion hh)
  | .error _, .ok _ => isFalse (by intro hh; exact Except.noConfusion hh)

theorem upd_same {α : Type} (f : String → α) (k : String) (v : α) : upd f k v k = v := by
  simp [upd]

theorem upd_other {α : Type} (f : String → α) (k k' : String) (v : α) (h : k' ≠ k) :
    upd f k v k' = f k' := by
  simp [upd, h]

/-- A store holding only an initialized volume root. -/
def rootStore : Store :=
  { meta := fun p => if p = "/" then some (NewDirMeta "0755" 0) else none,
    data := fun _ => none,
    dirs := fun _ => [],
    xattr := fun _ => none }

/-- Store for the C2 counterexample: an initialized root plus a symlink
`/ln` whose target `/t` does not exist. -/
def c2Store : Store :=
  { meta := fun p =>
      if p = "/" then some (NewDirMeta "0755" 0)
      else if p = "/ln" then some (NewSymlinkMeta "/t" 0)
      else none,
    data := fun _ => none,
    dirs := fun p => if p = "/" then ["ln"] else [],
    xattr := fun _ => none }

/-- C2 counterexample: `/ln` is a path whose parent is an existing
directory, and WriteFile on it succeeds — but WriteFile stores the content
under the symlink's own content key while ReadFile follows the link, so
the read returns the (missing) target's content, not what was written. -/
theorem c2_write_read_counterexample :
    IsDir c2Store (ParentPath "/ln") = true ∧
    (c2Store.meta "/ln").map (·.type) = some TypeSymlink ∧
    (runFinal c2Store (WriteFile c2Store "/ln" "hi" 1)).map
      (fun s' => ReadFile s' "/ln") = .ok (.ok "") ∧
    (Except.ok (Except.ok "") : Except FsErr (Except FsErr String))
      ≠ .ok (.ok "hi") := by
  refine ⟨by decide, by decide, by decide, by decide⟩

/-- C2 amended: for every path `f` whose parent (after normalization) is an
existing directory and whose own entry is absent or a regular (non-symlink,
non-directory) entry, WriteFile(f, c) succeeds, ReadFile(f) then returns
`c`, and the stored metadata records size `len c`.  The restriction on
symlinks is forced by the counterexample: WriteFile writes the link's own
content key while ReadFile follows the link. -/
theorem c2_write_read_amended (s : Store) (f c : String) (now : Int)
    (hparent : IsDir s (ParentPath (NormalizePath f)) = true)
    (hentry : ∀ m, s.meta (NormalizePath f) = some m →
      m.type ≠ TypeSymlink ∧ m.type ≠ TypeDir) :
    ∃ s', runFinal s (WriteFile s f c now) = .ok s' ∧
      ReadFile s' f = .ok c ∧
      (Stat s' (NormalizePath f)).map (·.size) = some (c.length : Int) := by
  rcases hm : s.meta (NormalizePath f) with _ | m
  · refine ⟨{ s with
        data := upd s.data (NormalizePath f) (some c),
        meta := upd s.meta (NormalizePath f)
          (some (NewFileMeta "0644" (c.length : Int) now)),
        dirs := upd s.dirs (ParentPath (NormalizePath f))
          (sadd (s.dirs (ParentPath (NormalizePath f))) (BaseName (NormalizePath f))) },
      ?_, ?_, ?_⟩
    · simp only [WriteFile, hm, runFinal]
      rw [if_neg (fun hcon => hcon hparent)]
      rfl
    · simp only [ReadFile, upd_same]
      rw [show (NewFileMeta "0644" (c.length : Int) now).type = TypeFile from rfl]
      rw [if_neg (by decide), if_neg (by decide)]
      simp [upd_same]
    · simp only [Stat, upd_same]
      rfl
  · rcases hentry m hm with ⟨hns, hnd⟩
    refine ⟨{ s with
        data := upd s.data (NormalizePath f) (some c),
        meta := upd s.meta (NormalizePath f)
          (some { m with size := (c.length : Int), mtime := now }) }, ?_, ?_, ?_⟩
    · simp only [WriteFile, hm, runFinal]
      rw [if_neg hnd]
      rfl
    · simp only [ReadFile, upd_same]
      rw [show ({ m with size := (c.length : Int), mtime := now } : Metadata).type
        = m.type from rfl]
      rw [if_neg hnd, if_neg hns]
      simp [upd_same]
    · simp only [Stat, upd_same]
      rfl

/-- C2 witness: writing a fresh file under the root. -/
theorem c2_write_read_witness :
    ∃ s', runFinal rootStore (WriteFile rootStore "/a.txt" "hi" 7) = .ok s' ∧
      ReadFile s' "/a.txt" = .ok "hi" ∧
      (Stat s' (NormalizePath "/a.txt")).map (·.size) = some (("hi".length : Int)) := by
  refine c2_write_read_amended rootStore "/a.txt" "hi" 7 (by decide) ?_
  intro m hm
  rw [show rootStore.meta (NormalizePath "/a.txt") = none from by decide] at hm
  exact Option.noConfusion hm

/-- Run lemma: WriteFile on an absent path with a directory parent commits
exactly the new-file transaction. -/
theorem writeFile_new_run (s : Store) (p c : String) (now : Int)
    (hm : s.meta (NormalizePath p) = none)
    (hparent : IsDir s (ParentPath (NormalizePath p)) = true) :
    runFinal s (WriteFile s p c now) = .ok { s with
      data := upd s.data (NormalizePath p) (some c),
      meta := upd s.meta (NormalizePath p) (some (NewFileMeta "0644" (c.length : Int) now)),
      dirs := upd s.dirs (ParentPath (NormalizePath p))
        (sadd (s.dirs (ParentPath (NormalizePath p))) (BaseName (NormalizePath p))) } := by
  simp only [WriteFile, hm, runFinal]
  rw [if_neg (fun hcon => hcon hparent)]
  rfl

/-- Run lemma: AppendFile on an existing non-directory entry commits the
append transaction and then the size/mtime update. -/
theorem appendFile_existing_run (s : Store) (p c : String) (now : Int) (m : Metadata)
    (hm : s.meta (NormalizePath p) = some m) (hnd : m.type ≠ TypeDir) :
    runFinal s (AppendFile s p c now) = .ok { s with
      data := upd s.data (NormalizePath p)
        (some ((s.data (NormalizePath p)).getD "" ++ c)),
      meta := upd s.meta (NormalizePath p) (some { m with
        size := (((s.data (NormalizePath p)).getD "" ++ c).length : Int),
        mtime := now }) } := by
  simp only [AppendFile, hm, runFinal]
  rw [if_neg hnd]
  rfl

/-- C3: appending twice to a fresh file (absolute path, directory parent)
leaves content `c1 ++ c2` and stored size `len c1 + len c2`; and on any
existing non-directory entry the new size is recomputed from the actual
post-append content length (a drifted stored size is ignored), never as
old-size plus delta. -/
theorem c3_append_semantics :
    (∀ s : Store, ∀ f c1 c2 : String, ∀ now1 now2 : Int,
      f.data.head? = some '/' →
      s.meta (NormalizePath f) = none →
      IsDir s (ParentPath (NormalizePath f)) = true →
      ∃ s1 s2, runFinal s (AppendFile s f c1 now1) = .ok s1 ∧
        runFinal s1 (AppendFile s1 f c2 now2) = .ok s2 ∧
        s2.data (NormalizePath f) = some (c1 ++ c2) ∧
        (Stat s2 (NormalizePath f)).map (·.size)
          = some ((c1.length : Int) + (c2.length : Int))) ∧
    (∀ s : Store, ∀ f c : String, ∀ now : Int, ∀ m : Metadata,
      s.meta (NormalizePath f) = some m → m.type ≠ TypeDir →
      ∃ s', runFinal s (AppendFile s f c now) = .ok s' ∧
        s'.data (NormalizePath f) = some ((s.data (NormalizePath f)).getD "" ++ c) ∧
        (Stat s' (NormalizePath f)).map (·.size)
          = some ((((s.data (NormalizePath f)).getD "").length : Int) + (c.length : Int))) := by
  constructor
  · intro s f c1 c2 now1 now2 habs hm hparent
    have hidem : NormalizePath (NormalizePath f) = NormalizePath f :=
      NormalizePath_idem_rooted f habs
    have hstep1 : AppendFile s f c1 now1 = WriteFile s (NormalizePath f) c1 now1 := by
      simp only [AppendFile, hm]
    have hw := writeFile_new_run s (NormalizePath f) c1 now1
      (by rw [hidem]; exact hm) (by rw [hidem]; exact hparent)
    rw [hidem] at hw
    rw [← hstep1] at hw
    have hmeta1 : (upd s.meta (NormalizePath f)
        (some (NewFileMeta "0644" (c1.length : Int) now1))) (NormalizePath f)
        = some (NewFileMeta "0644" (c1.length : Int) now1) := upd_same ..
    have happend := appendFile_existing_run ({ s with
        data := upd s.data (NormalizePath f) (some c1),
        meta := upd s.meta (NormalizePath f)
          (some (NewFileMeta "0644" (c1.length : Int) now1)),
        dirs := upd s.dirs (ParentPath (NormalizePath f))
          (sadd (s.dirs (ParentPath (NormalizePath f))) (BaseName (NormalizePath f))) })
      f c2 now2 (NewFileMeta "0644" (c1.length : Int) now1) hmeta1
      (by intro h; simp [NewFileMeta, TypeFile, TypeDir] at h)
    refine ⟨_, _, hw, happend, ?_, ?_⟩
    · simp only [upd_same]
      simp
    · simp only [Stat, upd_same, Option.map_some]
      simp [String.length_append]
  · intro s f c now m hm hnd
    refine ⟨_, appendFile_existing_run s f c now m hm hnd, ?_, ?_⟩
    · exact upd_same ..
    · show ((upd s.meta (NormalizePath f) (some { m with
        size := (((s.data (NormalizePath f)).getD "" ++ c).length : Int), mtime := now }))
        (NormalizePath f)).map (·.size)
        = some ((((s.data (NormalizePath f)).getD "").length : Int) + (c.length : Int))
      rw [upd_same]
      simp [String.length_append]

/-- Store with a file `/d` whose stored size field (99) has drifted from
its actual one-byte content `x`. -/
def c3DriftStore : Store :=
  { meta := fun p =>
      if p = "/" then some (NewDirMeta "0755" 0)
      else if p = "/d" then some (NewFileMeta "0644" 99 0) else none,
    data := fun p => if p = "/d" then some "x" else none,
    dirs := fun p => if p = "/" then ["d"] else [],
    xattr := fun _ => none }

/-- C3 witness: two appends to a fresh `/log`, plus one append to the
drifted `/d` whose new size comes from the actual content length. -/
theorem c3_append_witness :
    (∃ s1 s2, runFinal rootStore (AppendFile rootStore "/log" "ab" 1) = .ok s1 ∧
      runFinal s1 (AppendFile s1 "/log" "cde" 2) = .ok s2 ∧
      s2.data (NormalizePath "/log") = some ("ab" ++ "cde") ∧
      (Stat s2 (NormalizePath "/log")).map (·.size)
        = some ((("ab".length : Int)) + (("cde".length : Int)))) ∧
    (∃ s', runFinal c3DriftStore (AppendFile c3DriftStore "/d" "y" 5) = .ok s' ∧
      s'.data (NormalizePath "/d")
        = some ((c3DriftStore.data (NormalizePath "/d")).getD "" ++ "y") ∧
      (Stat s' (NormalizePath "/d")).map (·.size)
        = some ((((c3DriftStore.data (NormalizePath "/d")).getD "").length : Int)
          + (("y".length : Int)))) := by
  constructor
  · exact c3_append_semantics.1 rootStore "/log" "ab" "cde" 1 2 (by decide) (by decide) (by decide)
  · exact c3_append_semantics.2 c3DriftStore "/d" "y" 5 (NewFileMeta "0644" 99 0)
      (by decide) (by decide)

/-- One resolution hop: the next path of a symlink entry (an absolute
target as stored, a relative one joined onto the link's own parent
directory), `none` for a missing or non-symlink entry. -/
def symlinkNext (s : Store) (p : String) : Option String :=
  match s.meta p with
  | none => none
  | some m =>
    if m.type = TypeSymlink then
      some (if m.linkTarget.data.head? = some '/' then m.linkTarget
        else JoinPath (ParentPath p) m.linkTarget)
    else none

/-- Consecutive symlink hops from `p` through `hops`. -/
def linkStepsB (s : Store) : String → List String → Bool
  | _, [] => true
  | p, q :: rest => (symlinkNext s p = some q) && linkStepsB s q rest

/-- A complete chain: consecutive hops whose last element (or `p` itself
when there are none) is not a symlink. -/
def linkChainB (s : Store) (p : String) (hops : List String) : Bool :=
  linkStepsB s p hops && (symlinkNext s (hops.getLastD p)).isNone

theorem resolveSymlinkFuel_succ (s : Store) (fuel : Nat) (p : String) :
    resolveSymlinkFuel s (fuel + 1) p
      = match symlinkNext s p with
        | none => .ok p
        | some q => resolveSymlinkFuel s fuel q := by
  simp only [resolveSymlinkFuel, symlinkNext]
  rcases s.meta p with _ | m
  · rfl
  · dsimp only
    by_cases ht : m.type = TypeSymlink
    · rw [if_pos ht, if_pos ht]
    · rw [if_neg ht, if_neg ht]

theorem resolve_ok_of_chain : ∀ (hops : List String) (s : Store) (p : String) (fuel : Nat),
    linkChainB s p hops = true → hops.length < fuel →
    resolveSymlinkFuel s fuel p = .ok (hops.getLastD p) := by
  intro hops
  induction hops with
  | nil =>
    intro s p fuel hchain hlen
    rcases fuel with _ | f
    · omega
    · rw [resolveSymlinkFuel_succ]
      simp only [linkChainB, linkStepsB, Bool.true_and, Option.isNone_iff_eq_none] at hchain
      rw [show ([] : List String).getLastD p = p from rfl] at hchain
      rw [hchain]
      rfl
  | cons q rest ih =>
    intro s p fuel hchain hlen
    rcases fuel with _ | f
    · omega
    · rw [resolveSymlinkFuel_succ]
      simp only [linkChainB, linkStepsB, Bool.and_eq_true, decide_eq_true_eq,
        Option.isNone_iff_eq_none, List.getLastD_cons] at hchain
      rcases hchain with ⟨⟨hnext, hsteps⟩, hlast⟩
      rw [hnext, List.getLastD_cons]
      exact ih s q f
        (by simp only [linkChainB, Bool.and_eq_true, Option.isNone_iff_eq_none]
            exact ⟨hsteps, hlast⟩)
        (by simp only [List.length_cons] at hlen; omega)

theorem resolve_err_of_steps : ∀ (fuel : Nat) (s : Store) (p : String) (hops : List String),
    linkStepsB s p hops = true → fuel ≤ hops.length →
    resolveSymlinkFuel s fuel p = .error .tooManyLinks := by
  intro fuel
  induction fuel with
  | zero => intro s p hops _ _; rfl
  | succ f ih =>
    intro s p hops hsteps hlen
    rcases hops with _ | ⟨q, rest⟩
    · simp at hlen
    · rw [resolveSymlinkFuel_succ]
      simp only [linkStepsB, Bool.and_eq_true, decide_eq_true_eq] at hsteps
      rw [hsteps.1]
      exact ih s q rest hsteps.2 (by simp only [List.length_cons] at hlen; omega)

/-- Path of the i-th link of the counterexample chain (`/l`, `/ll`, ...). -/
def linkPath (i : Nat) : String := String.mk ('/' :: List.replicate i 'l')

/-- Metadata of a chain of `k` symlinks `linkPath 1 → ... → linkPath (k+1)`
over an initialized root, ending at the regular file `linkPath (k+1)`. -/
def chainMeta (k : Nat) : Nat → String → Option Metadata
  | 0, p =>
    if p = "/" then some (NewDirMeta "0755" 0)
    else if p = linkPath (k + 1) then some (NewFileMeta "0644" 0 0) else none
  | i + 1, p =>
    if p = linkPath (i + 1) then some (NewSymlinkMeta (linkPath (i + 2)) 0)
    else chainMeta k i p

/-- Store with a chain of exactly 40 symlinks ending at a regular file. -/
def c4Store : Store :=
  { meta := chainMeta 40 40, data := fun _ => none, dirs := fun _ => [],
    xattr := fun _ => none }

/-- C4 counterexample: a chain of exactly 40 symlink hops ending at a
regular file — length not greater than 40, so the claim says it resolves —
is rejected with the too-many-links error, because the depth guard
`depth >= 40` fires on entry to the 41st call. -/
theorem c4_resolve_counterexample :
    linkStepsB c4Store (linkPath 1) ((List.range 40).map (fun i => linkPath (i + 2))) = true ∧
    ((List.range 40).map (fun i => linkPath (i + 2))).length = 40 ∧
    (c4Store.meta (linkPath 41)).map (·.type) = some TypeFile ∧
    ResolveSymlink c4Store (linkPath 1) 0 = .error .tooManyLinks :=
  ⟨by decide, by decide, by decide, by decide⟩

/-- C4 amended: symlink resolution always terminates, but the hop budget is
off by one from the claim: a chain of at most 39 hops resolves to its final
non-symlink path, while 40 or more consecutive symlink hops yield the
too-many-links error (the guard `depth >= 40` fires before the 41st stat,
even when that entry would not be a symlink); a relative link target is
resolved against the link's own parent directory. -/
theorem c4_resolve_amended :
    (∀ (s : Store) (p : String) (hops : List String),
      linkChainB s p hops = true → hops.length ≤ 39 →
      ResolveSymlink s p 0 = .ok (hops.getLastD p)) ∧
    (∀ (s : Store) (p : String) (hops : List String),
      linkStepsB s p hops = true → hops.length = 40 →
      ResolveSymlink s p 0 = .error .tooManyLinks) ∧
    (∀ (s : Store) (p : String) (d : Nat) (m : Metadata),
      d < maxSymlinkDepth → s.meta p = some m → m.type = TypeSymlink →
      m.linkTarget.data.head? ≠ some '/' →
      ResolveSymlink s p d
        = ResolveSymlink s (JoinPath (ParentPath p) m.linkTarget) (d + 1)) := by
  refine ⟨?_, ?_, ?_⟩
  · intro s p hops hchain hlen
    exact resolve_ok_of_chain hops s p (maxSymlinkDepth - 0) hchain
      (by simp [maxSymlinkDepth]; omega)
  · intro s p hops hsteps hlen
    exact resolve_err_of_steps (maxSymlinkDepth - 0) s p hops hsteps
      (by simp [maxSymlinkDepth]; omega)
  · intro s p d m hd hm ht hrel
    have h40 : maxSymlinkDepth - d = (maxSymlinkDepth - (d + 1)) + 1 := by
      simp only [maxSymlinkDepth] at hd ⊢
      omega
    rw [ResolveSymlink, ResolveSymlink, h40, resolveSymlinkFuel_succ]
    rw [show symlinkNext s p = some (JoinPath (ParentPath p) m.linkTarget) from by
      rw [symlinkNext.eq_def, hm]
      dsimp only
      rw [if_pos ht, if_neg hrel]]

/-- Store with a relative symlink `/d/ln -> t` inside the directory `/d`. -/
def c4RelStore : Store :=
  { meta := fun p =>
      if p = "/" then some (NewDirMeta "0755" 0)
      else if p = "/d" then some (NewDirMeta "0755" 0)
      else if p = "/d/ln" then some (NewSymlinkMeta "t" 0)
      else none,
    data := fun _ => none,
    dirs := fun p => if p = "/" then ["d"] else if p = "/d" then ["ln"] else [],
    xattr := fun _ => none }

/-- C4 witness: a one-hop chain resolves to its target, the 40-hop chain
errors, and a relative target steps through the link's own parent. -/
theorem c4_resolve_witness :
    ResolveSymlink c2Store "/ln" 0 = .ok (["/t"].getLastD "/ln") ∧
    ResolveSymlink c4Store (linkPath 1) 0 = .error .tooManyLinks ∧
    ResolveSymlink c4RelStore "/d/ln" 0
      = ResolveSymlink c4RelStore (JoinPath (ParentPath "/d/ln") "t") 1 := by
  refine ⟨?_, ?_, ?_⟩
  · exact c4_resolve_amended.1 c2Store "/ln" ["/t"] (by decide) (by decide)
  · exact c4_resolve_amended.2.1 c4Store (linkPath 1)
      ((List.range 40).map (fun i => linkPath (i + 2))) (by decide) (by decide)
  · exact c4_resolve_amended.2.2 c4RelStore "/d/ln" 0 (NewSymlinkMeta "t" 0)
      (by decide) (by decide) (by decide) (by decide)

/-- Store for the C5 failing input: the root plus a regular file `/f`. -/
def c5Store : Store :=
  { meta := fun p =>
      if p = "/" then some (NewDirMeta "0755" 0)
      else if p = "/f" then some (NewFileMeta "0644" 0 0) else none,
    data := fun p => if p = "/f" then some "" else none,
    dirs := fun p => if p = "/" then ["f"] else [],
    xattr := fun _ => none }

/-- C5: `mkdirParents` checks only existence, never the type, of each
component, so `Mkdir("/f/sub", parents := true)` over a regular file `/f`
succeeds instead of failing with NotADirectory: it creates directory
metadata for `/f/sub` and adds `sub` to the membership set annotating the
file `/f` (violating the data model's invariant that membership sets only
annotate directories). -/
theorem c5_mkdirp_bug :
    (c5Store.meta "/f").map (·.type) = some TypeFile ∧
    (runFinal c5Store (Mkdir c5Store "/f/sub" true 3)).map
      (fun s' => ((s'.meta "/f/sub").map (·.type),
        (s'.dirs "/f").contains "sub",
        (s'.meta "/f").map (·.type)))
      = .ok (some TypeDir, true, some TypeFile) := by
  refine ⟨by decide, by decide⟩

/-- C6: for an existing non-root directory `d`, Rmdir fails with NotEmpty
if and only if the membership set is non-empty at call time; when it is
empty, one transaction deletes the metadata, membership and xattr records
and removes the basename from the parent's membership set. -/
theorem c6_rmdir_semantics (s : Store) (d : String)
    (hroot : NormalizePath d ≠ "/")
    (hdir : IsDir s (NormalizePath d) = true) :
    (Rmdir s d = .error .notEmpty ↔ s.dirs (NormalizePath d) ≠ []) ∧
    (s.dirs (NormalizePath d) = [] →
      ∃ s', runFinal s (Rmdir s d) = .ok s' ∧
        s'.meta (NormalizePath d) = none ∧
        s'.dirs (NormalizePath d) = [] ∧
        s'.xattr (NormalizePath d) = none ∧
        BaseName (NormalizePath d) ∉ s'.dirs (ParentPath (NormalizePath d))) := by
  have hred : Rmdir s d
      = if (s.dirs (NormalizePath d)).length > 0 then .error .notEmpty
        else .ok [{ s with
          meta := upd s.meta (NormalizePath d) none,
          dirs := upd (upd s.dirs (NormalizePath d) []) (ParentPath (NormalizePath d))
            (srem ((upd s.dirs (NormalizePath d) []) (ParentPath (NormalizePath d)))
              (BaseName (NormalizePath d))),
          xattr := upd s.xattr (NormalizePath d) none }] := by
    simp only [Rmdir]
    rw [if_neg hroot, if_neg (fun hcon => hcon hdir)]
  constructor
  · by_cases hne : s.dirs (NormalizePath d) = []
    · rw [hred, if_neg (by simp [hne])]
      constructor
      · intro h; exact Except.noConfusion h
      · intro h; exact absurd hne h
    · rw [hred, if_pos (List.length_pos.mpr hne)]
      constructor
      · intro _; exact hne
      · intro _; rfl
  · intro hne
    refine ⟨{ s with
        meta := upd s.meta (NormalizePath d) none,
        dirs := upd (upd s.dirs (NormalizePath d) []) (ParentPath (NormalizePath d))
          (srem ((upd s.dirs (NormalizePath d) []) (ParentPath (NormalizePath d)))
            (BaseName (NormalizePath d))),
        xattr := upd s.xattr (NormalizePath d) none }, ?_, ?_, ?_, ?_, ?_⟩
    · rw [hred, if_neg (by simp [hne])]
      rfl
    · exact upd_same ..
    · by_cases hpar : NormalizePath d = ParentPath (NormalizePath d)
      · simp [upd, ← hpar, srem]
      · simp [upd, hpar]
    · exact upd_same ..
    · rw [show ({ s with
        meta := upd s.meta (NormalizePath d) none,
        dirs := upd (upd s.dirs (NormalizePath d) []) (ParentPath (NormalizePath d))
          (srem ((upd s.dirs (NormalizePath d) []) (ParentPath (NormalizePath d)))
            (BaseName (NormalizePath d))),
        xattr := upd s.xattr (NormalizePath d) none } : Store).dirs
          (ParentPath (NormalizePath d))
        = srem ((upd s.dirs (NormalizePath d) []) (ParentPath (NormalizePath d)))
          (BaseName (NormalizePath d)) from upd_same ..]
      simp [srem, List.mem_filter]

/-- Store with an empty directory `/e` under the root. -/
def c6Store : Store :=
  { meta := fun p =>
      if p = "/" then some (NewDirMeta "0755" 0)
      else if p = "/e" then some (NewDirMeta "0755" 0) else none,
    data := fun _ => none,
    dirs := fun p => if p = "/" then ["e"] else [],
    xattr := fun _ => none }

/-- C6 witness on the concrete empty directory `/e`. -/
theorem c6_rmdir_witness :
    (Rmdir c6Store "/e" = .error .notEmpty ↔ c6Store.dirs (NormalizePath "/e") ≠ []) ∧
    (∃ s', runFinal c6Store (Rmdir c6Store "/e") = .ok s' ∧
      s'.meta (NormalizePath "/e") = none ∧
      s'.dirs (NormalizePath "/e") = [] ∧
      s'.xattr (NormalizePath "/e") = none ∧
      BaseName (NormalizePath "/e") ∉ s'.dirs (ParentPath (NormalizePath "/e"))) := by
  have h := c6_rmdir_semantics c6Store "/e" (by decide) (by decide)
  exact ⟨h.1, h.2 (by decide)⟩

/-- C7 counterexample: ReadDir and ReadDirWithMeta on a missing path return
an empty successful listing, not an error. -/
theorem c7_readdir_counterexample :
    rootStore.meta "/nope" = none ∧
    ReadDir rootStore "/nope" = .ok [] ∧
    ReadDirWithMeta rootStore "/nope" = .ok [] := ⟨by decide, rfl, rfl⟩

/-- C7 amended: neither ReadDir nor ReadDirWithMeta checks the target's
existence or type; for every path — in particular a missing or
non-directory one — they return the membership set stored under the path's
directory key with no error, and a path with no recorded members yields
the empty listing. -/
theorem c7_readdir_amended (s : Store) (p : String)
    (_h : s.meta p = none ∨ (s.meta p).map (·.type) ≠ some TypeDir) :
    ReadDir s p = .ok (s.dirs p) ∧
    (∃ e, ReadDirWithMeta s p = .ok e) ∧
    (s.dirs p = [] → ReadDir s p = .ok [] ∧ ReadDirWithMeta s p = .ok []) := by
  refine ⟨rfl, ⟨(s.dirs p).map (fun child =>
    { name := child, meta := (s.meta (JoinPath p child)).getD zeroMeta }), rfl⟩,
    fun hnil => ⟨by rw [← hnil]; rfl, ?_⟩⟩
  simp [ReadDirWithMeta, ReadDir, hnil]

/-- C7 witness on a missing path under the root. -/
theorem c7_readdir_witness :
    ReadDir rootStore "/missing" = .ok (rootStore.dirs "/missing") ∧
    (∃ e, ReadDirWithMeta rootStore "/missing" = .ok e) ∧
    (rootStore.dirs "/missing" = [] →
      ReadDir rootStore "/missing" = .ok [] ∧
      ReadDirWithMeta rootStore "/missing" = .ok []) :=
  c7_readdir_amended rootStore "/missing" (Or.inl (by decide))

/-- C10: when a path's metadata exists with a non-directory type and the
content record that resolution leads to is absent (a file whose data key
was never set, or a symlink chain resolving to a nonexistent path),
ReadFile returns the empty string with no error: the redis.Nil result of
the content GET is mapped to `""`. -/
theorem c10_readfile_missing_content (s : Store) (p : String) (m : Metadata) (q : String)
    (hm : s.meta (NormalizePath p) = some m)
    (hnd : m.type ≠ TypeDir)
    (hres : (if m.type = TypeSymlink then ResolveSymlink s (NormalizePath p) 0
      else .ok (NormalizePath p)) = .ok q)
    (hdata : s.data q = none) :
    ReadFile s p = .ok "" := by
  simp only [ReadFile, hm]
  rw [if_neg hnd, hres]
  dsimp only
  rw [hdata]

/-- Store with a file `/ghost` whose content key was never written. -/
def c10Store : Store :=
  { meta := fun p =>
      if p = "/" then some (NewDirMeta "0755" 0)
      else if p = "/ghost" then some (NewFileMeta "0644" 5 0) else none,
    data := fun _ => none,
    dirs := fun p => if p = "/" then ["ghost"] else [],
    xattr := fun _ => none }

/-- C10 witness: reading `/ghost` yields the empty string, not NotFound. -/
theorem c10_readfile_witness : ReadFile c10Store "/ghost" = .ok "" :=
  c10_readfile_missing_content c10Store "/ghost" (NewFileMeta "0644" 5 0)
    (NormalizePath "/ghost") (by decide) (by decide) (by decide) (by decide)

/-- Store with a one-byte file `/a` (content `x`, stored size 1). -/
def c1Store : Store :=
  { meta := fun p =>
      if p = "/" then some (NewDirMeta "0755" 0)
      else if p = "/a" then some (NewFileMeta "0644" 1 0) else none,
    data := fun p => if p = "/a" then some "x" else none,
    dirs := fun p => if p = "/" then ["a"] else [],
    xattr := fun p => if p = "/a" then some "attrs" else none }

/-- C1 counterexample: AppendFile on an existing file issues TWO commits,
and after the first one (the APPEND+STRLEN transaction) an external reader
observes the appended content `xy` with the stale stored size 1; only the
second commit (a separate HSET) writes size 2. -/
theorem c1_atomicity_counterexample :
    (AppendFile c1Store "/a" "y" 9).map (fun l => l.map (fun st =>
      (st.data "/a", (st.meta "/a").map (·.size))))
      = .ok [(some "xy", some 1), (some "xy", some 2)] := by decide

/-- C1 amended: the single-path engine mutations commit all their key
updates in one atomic transaction — WriteFile (both branches), Mkdir
(non-recursive), Rmdir, Remove, Touch and Symlink each produce exactly one
observable commit — with two exceptions visible in the source: AppendFile
on an existing entry first commits the APPEND+STRLEN transaction and only
then a separate HSET of size/mtime, so a reader can observe appended
content with the stale size (the final commit restores size = actual
content length); and moveFile renames the metadata/content keys and
updates both membership sets in one transaction but renames the xattr key
in a separate best-effort step afterwards, so a reader can observe the
moved entry with its xattr still under the old path. -/
theorem c1_atomicity_amended :
    (∀ (s : Store) (p c : String) (now : Int) (l : List Store),
      WriteFile s p c now = .ok l → l.length = 1) ∧
    (∀ (s : Store) (p : String) (now : Int) (l : List Store),
      Mkdir s p false now = .ok l → l.length ≤ 1) ∧
    (∀ (s : Store) (p : String) (l : List Store),
      Rmdir s p = .ok l → l.length = 1) ∧
    (∀ (s : Store) (p : String) (l : List Store),
      Remove s p = .ok l → l.length = 1) ∧
    (∀ (s : Store) (p : String) (now : Int) (l : List Store),
      Touch s p now = .ok l → l.length = 1) ∧
    (∀ (s : Store) (t p : String) (now : Int) (l : List Store),
      Symlink s t p now = .ok l → l.length = 1) ∧
    (∀ (s : Store) (p c : String) (now : Int) (m : Metadata),
      s.meta (NormalizePath p) = some m → m.type ≠ TypeDir →
      ∃ s1 s2, AppendFile s p c now = .ok [s1, s2] ∧
        s1.data (NormalizePath p) = some ((s.data (NormalizePath p)).getD "" ++ c) ∧
        (s1.meta (NormalizePath p)).map (·.size) = some m.size ∧
        (s2.meta (NormalizePath p)).map (·.size)
          = some ((((s.data (NormalizePath p)).getD "" ++ c).length : Int))) ∧
    (∀ (s : Store) (src dst v : String),
      dst ≠ src → s.xattr src = some v →
      ∃ s1 s2, moveFile s src dst = .ok [s1, s2] ∧
        s1.meta dst = s.meta src ∧ s1.meta src = none ∧
        s1.data dst = s.data src ∧ s1.data src = none ∧
        s1.xattr src = some v ∧ s1.xattr dst = s.xattr dst ∧
        s2.xattr dst = some v ∧ s2.xattr src = none ∧ s2.meta dst = s.meta src) := by
  refine ⟨?_, ?_, ?_, ?_, ?_, ?_, ?_, ?_⟩
  · intro s p c now l h
    simp only [WriteFile] at h
    split at h
    · split at h
      · simp at h
      · injection h with h2; subst h2; rfl
    · split at h
      · simp at h
      · injection h with h2; subst h2; rfl
  · intro s p now l h
    simp only [Mkdir] at h
    split at h
    · injection h with h2; subst h2; decide
    · split at h
      · exact absurd ‹(false : Bool) = true› (by simp)
      · split at h
        · simp at h
        · split at h
          · simp at h
          · simp only [createDir] at h
            injection h with h2; subst h2; simp
  · intro s p l h
    simp only [Rmdir] at h
    split at h
    · simp at h
    · split at h
      · simp at h
      · split at h
        · simp at h
        · injection h with h2; subst h2; rfl
  · intro s p l h
    simp only [Remove] at h
    split at h
    · simp at h
    · split at h
      · simp at h
      · split at h
        · simp at h
        · injection h with h2; subst h2; rfl
  · intro s p now l h
    simp only [Touch] at h
    split at h
    · injection h with h2; subst h2; rfl
    · split at h
      · simp at h
      · injection h with h2; subst h2; rfl
  · intro s t p now l h
    simp only [Symlink] at h
    split at h
    · simp at h
    · split at h
      · simp at h
      · injection h with h2; subst h2; rfl
  · intro s p c now m hm hnd
    refine ⟨{ s with
        data := upd s.data (NormalizePath p)
          (some ((s.data (NormalizePath p)).getD "" ++ c)) },
      { s with
        data := upd s.data (NormalizePath p)
          (some ((s.data (NormalizePath p)).getD "" ++ c)),
        meta := upd s.meta (NormalizePath p) (some { m with
          size := (((s.data (NormalizePath p)).getD "" ++ c).length : Int),
          mtime := now }) }, ?_, ?_, ?_, ?_⟩
    · simp only [AppendFile, hm]
      rw [if_neg hnd]
    · exact upd_same ..
    · show (s.meta (NormalizePath p)).map (·.size) = some m.size
      rw [hm]
      rfl
    · rw [show ({ s with
        data := upd s.data (NormalizePath p)
          (some ((s.data (NormalizePath p)).getD "" ++ c)),
        meta := upd s.meta (NormalizePath p) (some { m with
          size := (((s.data (NormalizePath p)).getD "" ++ c).length : Int),
          mtime := now }) } : Store).meta
        = upd s.meta (NormalizePath p) (some { m with
          size := (((s.data (NormalizePath p)).getD "" ++ c).length : Int),
          mtime := now }) from rfl]
      rw [upd_same]
      rfl
  · intro s src dst v hne hx
    refine ⟨{ s with
        meta := upd (upd s.meta dst (s.meta src)) src none,
        data := upd (upd s.data dst (s.data src)) src none,
        dirs := upd (upd s.dirs (ParentPath src)
            (srem (s.dirs (ParentPath src)) (BaseName src))) (ParentPath dst)
          (sadd ((upd s.dirs (ParentPath src)
            (srem (s.dirs (ParentPath src)) (BaseName src))) (ParentPath dst))
            (BaseName dst)) },
      { s with
        meta := upd (upd s.meta dst (s.meta src)) src none,
        data := upd (upd s.data dst (s.data src)) src none,
        dirs := upd (upd s.dirs (ParentPath src)
            (srem (s.dirs (ParentPath src)) (BaseName src))) (ParentPath dst)
          (sadd ((upd s.dirs (ParentPath src)
            (srem (s.dirs (ParentPath src)) (BaseName src))) (ParentPath dst))
            (BaseName dst)),
        xattr := upd (upd s.xattr dst (some v)) src none },
      ?_, ?_, ?_, ?_, ?_, ?_, ?_, ?_, ?_, ?_⟩
    · simp only [moveFile, hx]
    · exact (upd_other _ _ _ _ hne).trans (upd_same ..)
    · exact upd_same ..
    · exact (upd_other _ _ _ _ hne).trans (upd_same ..)
    · exact upd_same ..
    · exact hx
    · rfl
    · exact (upd_other _ _ _ _ hne).trans (upd_same ..)
    · exact upd_same ..
    · exact (upd_other _ _ _ _ hne).trans (upd_same ..)

/-- C1 witness: the two-commit shapes at concrete inputs — AppendFile on
the existing file `/a` of `c1Store`, and moveFile of `/a` to `/b` with an
xattr record present. -/
theorem c1_atomicity_witness :
    (∃ s1 s2, AppendFile c1Store "/a" "y" 9 = .ok [s1, s2] ∧
      s1.data (NormalizePath "/a")
        = some ((c1Store.data (NormalizePath "/a")).getD "" ++ "y") ∧
      (s1.meta (NormalizePath "/a")).map (·.size) = some (NewFileMeta "0644" 1 0).size ∧
      (s2.meta (NormalizePath "/a")).map (·.size)
        = some ((((c1Store.data (NormalizePath "/a")).getD "" ++ "y").length : Int))) ∧
    (∃ s1 s2, moveFile c1Store "/a" "/b" = .ok [s1, s2] ∧
      s1.meta "/b" = c1Store.meta "/a" ∧ s1.meta "/a" = none ∧
      s1.data "/b" = c1Store.data "/a" ∧ s1.data "/a" = none ∧
      s1.xattr "/a" = some "attrs" ∧ s1.xattr "/b" = c1Store.xattr "/b" ∧
      s2.xattr "/b" = some "attrs" ∧ s2.xattr "/a" = none ∧
      s2.meta "/b" = c1Store.meta "/a") := by
  constructor
  · exact c1_atomicity_amended.2.2.2.2.2.2.1 c1Store "/a" "y" 9 (NewFileMeta "0644" 1 0)
      (by decide) (by decide)
  · exact c1_atomicity_amended.2.2.2.2.2.2.2 c1Store "/a" "/b" "attrs" (by decide) (by decide)
